import Mathlib

/-!
Verification development for the KaTeX core parser (Parser.js) and the
\zInput function definition (functions/zInput.js).

The parser is embedded shallowly: parser methods become Lean functions of
type `PState → Except PErr A × PState`, where `PState` holds the mutable
parser/lexer state (current mode, the upcoming token stream, the one-token
lookahead slot, catcodes, group-scope balance, macro table and settings).
A thrown `ParseError` becomes an `Except.error` result; crucially the state
at the moment of the throw is returned alongside, so claims about what the
code does (and does not) restore on error paths are expressible.

Modelling conventions, noted once here:
 * Tokens are modelled by their text payload only; source ranges, the
   `Token.range` operation and `SourceLocation` data (`loc` fields on
   nodes, token attribution on errors) are elided, as no claim mentions
   them.  `ParseError` is modelled by its message string.
 * Mutual recursion between the parser methods is made terminating with an
   explicit `fuel` argument; exhausting fuel yields the distinguished error
   `fuelErr`, which no real code path produces.
 * The macro expander (gullet) is modelled as a pre-expanded token list;
   `expandNextToken` pops the head and yields the "EOF" sentinel forever
   after exhaustion.  `beginGroup`/`endGroup` track the scope balance.
 * External read-only tables (the function registry, symbol tables,
   `implicitCommands`, `unicodeSymbols`, `unicodeAccents`, `validUnit`)
   are not under src/; they are modelled from the spec where needed, each
   marked `Modelled from the spec:` at its definition.
 * The identifier spelling `infx` is used for the node/flag the source
   spells "infix" (that spelling is not available as a Lean identifier
   here); string literals keep the original spelling where needed.
 * Brace and apostrophe characters inside string literals are written with
   \x7b \x7d \x27 escapes.
-/

set_option autoImplicit false

/-- Parse errors are modelled by their message (token attribution elided). -/
abbrev PErr := String

/-- The parser mode: one of "math" or "text". -/
inductive Mode where
  | math
  | text
  deriving DecidableEq, Repr, Inhabited

/-- Declared argument types of registered functions (type `ArgType`). -/
inductive ArgType where
  | color
  | size
  | url
  | raw
  | math
  | text
  | hbox
  | original
  deriving DecidableEq, Repr

/-- Value of a `size` node: `{number, unit}`.  JS floating point numbers are
modelled by exact rationals. -/
structure SizeValue where
  number : ℚ
  unit : String
  deriving DecidableEq, Repr

/-- AST nodes (`ParseNode`), as a closed sum.  `symK kind mode text` covers
the symbol-leaf kinds constructed from a string tag (`textord`, `mathord`,
`op-token`, ...): the source builds `{type: group, mode, text}` with the
tag coming from the symbol table, and builds `textord` leaves directly.
`loc` fields are elided throughout.  The node the source tags "infix"
(fields `replaceWith` and `token`, the latter elided) is `infx`. -/
inductive Node where
  | symK (kind : String) (mode : Mode) (text : String)
  | atomN (family : String) (mode : Mode) (text : String)
  | ordgroup (mode : Mode) (body : List Node) (semisimple : Bool)
  | supsub (mode : Mode) (base : Option Node) (sup : Option Node) (sub : Option Node)
  | infx (mode : Mode) (replaceWith : String)
  | op (mode : Mode) (limits : Bool) (alwaysHandleSupSub : Bool) (text : String)
  | operatorname (mode : Mode) (limits : Bool) (alwaysHandleSupSub : Bool)
  | colorN (mode : Mode) (color : String) (body : List Node)
  | colorToken (mode : Mode) (color : String)
  | textN (mode : Mode) (body : List Node)
  | styling (mode : Mode) (style : String) (body : List Node)
  | rawN (mode : Mode) (string : String)
  | urlN (mode : Mode) (url : String)
  | sizeN (mode : Mode) (value : SizeValue) (isBlank : Bool)
  | verb (mode : Mode) (body : String) (star : Bool)
  | accentN (mode : Mode) (label : String) (isStretchy : Bool) (isShifty : Bool) (base : Node)
  | genfrac (mode : Mode) (numer : Node) (denom : Node)
  | zInputN (mode : Mode) (index : Option Int) (width : SizeValue)
  deriving Repr

/-- The `mode` field shared by every node kind. -/
def Node.modeOf : Node → Mode
  | .symK _ m _ => m
  | .atomN _ m _ => m
  | .ordgroup m _ _ => m
  | .supsub m _ _ _ => m
  | .infx m _ => m
  | .op m _ _ _ => m
  | .operatorname m _ _ => m
  | .colorN m _ _ => m
  | .colorToken m _ => m
  | .textN m _ => m
  | .styling m _ _ => m
  | .rawN m _ => m
  | .urlN m _ => m
  | .sizeN m _ _ => m
  | .verb m _ _ => m
  | .accentN m _ _ _ _ => m
  | .genfrac m _ _ => m
  | .zInputN m _ _ => m

/-- The `text` payload of a node, when the node kind has one (JS `a.text`,
`undefined` otherwise).  Used by `formLigatures`. -/
def Node.textOf : Node → Option String
  | .symK _ _ t => some t
  | .atomN _ _ t => some t
  | .op _ _ _ t => some t
  | _ => none

/-- Test for the node type the source tags "infix". -/
def Node.isInfx : Node → Bool
  | .infx _ _ => true
  | _ => false

/-- Test for `type === "ordgroup"`. -/
def Node.isOrdgroup : Node → Bool
  | .ordgroup _ _ _ => true
  | _ => false

/-- The `replaceWith` field, read only on nodes of type "infix" (JS
`body[i].replaceWith`, `undefined` elsewhere — modelled as `""`, which the
reading code treats the same as the absent value). -/
def Node.replaceWithOf : Node → String
  | .infx _ rwv => rwv
  | _ => ""

/-- Settings surface consumed by the parser (Settings.js is external;
Modelled from the spec: `globalGroup`, `colorIsTextColor`, `throwOnError`,
`strict`, `errorColor`; strict-mode reports are non-fatal and are elided). -/
structure Settings where
  globalGroup : Bool := false
  colorIsTextColor : Bool := false
  throwOnError : Bool := true
  strict : Bool := false
  errorColor : String := "#cc0000"
  deriving DecidableEq, Repr

/-- Parser + token-interface state.  `tokens` is the stream the macro
expander will yield; `nextToken` is the single lookahead slot; `catcode`
models `gullet.lexer.setCatcode`; `groupDepth` the `beginGroup`/`endGroup`
balance; `mTable` the gullet macro table (`gullet.macros.set`). -/
structure PState where
  mode : Mode
  tokens : List String
  nextToken : Option String
  catcode : String → Nat
  groupDepth : Int
  mTable : List (String × String)
  settings : Settings

/-- Default catcodes: `%` is a comment character (14); other characters get
the ordinary catcode 12 (only `%` is ever consulted by this core). -/
def defaultCatcode : String → Nat :=
  fun c => if c = "%" then 14 else 12

/-- Initial parser state for an input token stream (constructor: mode starts
as "math", fresh gullet, zero leftright depth). -/
def initState (toks : List String) (settings : Settings) : PState :=
  { mode := Mode.math, tokens := toks, nextToken := none,
    catcode := defaultCatcode, groupDepth := 0, mTable := [], settings := settings }

/-- Result type of parser methods: outcome plus the state at exit (also at a
throw). -/
abbrev PRes (α : Type) := Except PErr α × PState

/-- Error used only when the modelling fuel runs out (no source analogue). -/
def fuelErr : PErr := "model: out of fuel"

/-- Return the cached lookahead, or pull the next token from the expander
into the cache (method `fetch`). -/
def fetch (s : PState) : String × PState :=
  match s.nextToken with
  | some t => (t, s)
  | none =>
    match s.tokens with
    | [] => ("EOF", { s with nextToken := some "EOF" })
    | t :: ts => (t, { s with nextToken := some t, tokens := ts })

/-- Discard the current lookahead token (method `consume`). -/
def consumeTok (s : PState) : PState :=
  { s with nextToken := none }

/-- Switch between "text" and "math" modes (method `switchMode`; the
gullet-side notification carries no further observable state here). -/
def switchMode (newMode : Mode) (s : PState) : PState :=
  { s with mode := newMode }

/-- Begin a group namespace on the gullet. -/
def beginGroup (s : PState) : PState :=
  { s with groupDepth := s.groupDepth + 1 }

/-- End a group namespace on the gullet. -/
def endGroup (s : PState) : PState :=
  { s with groupDepth := s.groupDepth - 1 }

/-- Set a catcode on the gullet's lexer. -/
def setCatcode (c : String) (code : Nat) (s : PState) : PState :=
  { s with catcode := fun x => if x = c then code else s.catcode x }

/-- Check that the lookahead has the given text and optionally consume it
(method `expect`). -/
def expect (text : String) (consumeArg : Bool) (s : PState) : PRes Unit :=
  let (t, s) := fetch s
  if t ≠ text then
    (Except.error ("Expected \x27" ++ text ++ "\x27, got \x27" ++ t ++ "\x27"), s)
  else if consumeArg then (Except.ok (), consumeTok s)
  else (Except.ok (), s)

/-- Drop leading space tokens from a raw token list. -/
def dropLeadingSpaces : List String → List String
  | " " :: ts => dropLeadingSpaces ts
  | ts => ts

/-- Discard space tokens until the lookahead is a non-space (method
`consumeSpaces`).  Net effect of the fetch/consume loop: the lookahead slot
ends up filled with the first non-space token. -/
def consumeSpaces (s : PState) : PState :=
  let step : PState → PState := fun s =>
    match dropLeadingSpaces s.tokens with
    | [] => { s with nextToken := some "EOF", tokens := [] }
    | t :: ts => { s with nextToken := some t, tokens := ts }
  match s.nextToken with
  | some t => if t = " " then step { s with nextToken := none } else s
  | none => step s

/-! ### Character and string helpers for the argument grammars -/

/-- Hexadecimal digit, case-insensitive (regex class `[a-f0-9]` with `i`). -/
def isHexDigit (c : Char) : Bool :=
  c.isDigit || (Char.ofNat 97 ≤ c && c ≤ Char.ofNat 102) ||
    (Char.ofNat 65 ≤ c && c ≤ Char.ofNat 70)

/-- Lowercase ASCII letter (regex class `[a-z]`). -/
def isLowerAlpha (c : Char) : Bool :=
  Char.ofNat 97 ≤ c && c ≤ Char.ofNat 122

/-- Whitespace skipped by JS `parseInt`. -/
def isJsSpace (c : Char) : Bool :=
  c = ' ' || c = Char.ofNat 9 || c = Char.ofNat 10 || c = Char.ofNat 13 ||
    c = Char.ofNat 11 || c = Char.ofNat 12

/-- Numeric value of a decimal digit list. -/
def digitsToNat (ds : List Char) : Nat :=
  ds.foldl (fun n c => n * 10 + (c.toNat - 48)) 0

/-- Numeric value of a hexadecimal digit list. -/
def hexToNat (ds : List Char) : Nat :=
  ds.foldl (fun n c =>
    n * 16 + (if c.isDigit then c.toNat - 48
              else if isLowerAlpha c then c.toNat - 87 else c.toNat - 55)) 0

/-- JS `parseInt(string)` with no radix argument: skip leading whitespace,
optional sign, `0x`/`0X` switches to hexadecimal, parse the longest digit
prefix, `none` (JS `NaN`) when no digit was read. -/
def jsParseInt (t : String) : Option Int :=
  let cs := t.toList.dropWhile isJsSpace
  let (neg, cs) :=
    match cs with
    | '-' :: r => (true, r)
    | '+' :: r => (false, r)
    | _ => (false, cs)
  let signed : Nat → Int := fun n => if neg then -(n : Int) else (n : Int)
  match cs with
  | '0' :: c :: r =>
    if c = 'x' || c = 'X' then
      let hs := r.takeWhile isHexDigit
      if hs.isEmpty then none else some (signed (hexToNat hs))
    else
      some (signed (digitsToNat (('0' :: c :: r).takeWhile Char.isDigit)))
  | _ =>
    let ds := cs.takeWhile Char.isDigit
    if ds.isEmpty then none else some (signed (digitsToNat ds))

/-- Rational value of `sign ++ intDigits ++ "." ++ fracDigits` (the JS
`+(match[1] + match[2])` conversion, exact). -/
def decToRat (neg : Bool) (ip fp : List Char) : ℚ :=
  let mag : ℚ := (digitsToNat ip : ℚ) + (digitsToNat fp : ℚ) / ((10 : ℚ) ^ fp.length)
  if neg then -mag else mag

/-- The tail ` *[a-z]{0,2} *$` of the size-input regex. -/
def sizePatTail (cs : List Char) : Bool :=
  let cs := cs.dropWhile (· = ' ')
  let ls := cs.takeWhile isLowerAlpha
  ls.length ≤ 2 && (cs.drop ls.length).all (· = ' ')

/-- Full-match test for `/^[-+]? *(?:$|\d+|\d+\.\d*|\.\d*) *[a-z]{0,2} *$/`,
the incremental size-group regex of `parseSizeGroup`. -/
def sizePat (t : String) : Bool :=
  let cs := t.toList
  let cs :=
    match cs with
    | c :: rest => if c = '-' || c = '+' then rest else c :: rest
    | [] => []
  let cs := cs.dropWhile (· = ' ')
  if cs.isEmpty then true
  else
    let ds := cs.takeWhile Char.isDigit
    let rest := cs.dropWhile Char.isDigit
    if !ds.isEmpty then
      sizePatTail rest ||
        (match rest with
         | '.' :: r2 => sizePatTail (r2.dropWhile Char.isDigit)
         | _ => false)
    else
      match cs with
      | '.' :: r2 => sizePatTail (r2.dropWhile Char.isDigit)
      | _ => false

/-- Match of `/([-+]?) *(\d+(?:\.\d*)?|\.\d+) *([a-z]{2})/` starting exactly
at the head of `cs`, yielding the signed magnitude and the two-letter unit. -/
def sizeMatchAt (cs : List Char) : Option (ℚ × String) :=
  let (neg, cs) :=
    match cs with
    | '-' :: r => (true, r)
    | '+' :: r => (false, r)
    | _ => (false, cs)
  let cs := cs.dropWhile (· = ' ')
  let ds := cs.takeWhile Char.isDigit
  let rest := cs.dropWhile Char.isDigit
  let mag : Option (List Char × List Char × List Char) :=
    if !ds.isEmpty then
      match rest with
      | '.' :: r2 => some (ds, r2.takeWhile Char.isDigit, r2.dropWhile Char.isDigit)
      | _ => some (ds, [], rest)
    else
      match cs with
      | '.' :: r2 =>
        let fs := r2.takeWhile Char.isDigit
        if fs.isEmpty then none else some ([], fs, r2.dropWhile Char.isDigit)
      | _ => none
  match mag with
  | none => none
  | some (ip, fp, rest) =>
    let rest := rest.dropWhile (· = ' ')
    match rest with
    | a :: b :: _ =>
      if isLowerAlpha a && isLowerAlpha b then
        some (decToRat neg ip fp, String.mk [a, b])
      else none
    | _ => none

/-- Leftmost unanchored match of the size regex (JS `RegExp.exec` search),
trying every start position left to right. -/
def firstSizeMatch (t : String) : Option (ℚ × String) :=
  let rec go : List Char → Option (ℚ × String)
    | [] => sizeMatchAt []
    | c :: rest =>
      match sizeMatchAt (c :: rest) with
      | some r => some r
      | none => go rest
  go t.toList

/-- Full-match test for `/^(#[a-f0-9]{3}|#?[a-f0-9]{6}|[a-z]+)$/i` of
`parseColorGroup`. -/
def colorPat (t : String) : Bool :=
  let cs := t.toList
  (match cs with
   | '#' :: r => (r.length = 3 || r.length = 6) && r.all isHexDigit
   | _ => false) ||
  (cs.length = 6 && cs.all isHexDigit) ||
  (!cs.isEmpty && cs.all Char.isAlpha)

/-- Full-match test for `/^[0-9a-f]{6}$/i` (six hex digits, no `#`). -/
def sixHexPat (t : String) : Bool :=
  t.toList.length = 6 && t.toList.all isHexDigit

/-- Characters unescaped in URLs: the class `[#$%&~_^{}]`. -/
def urlEscSet : List Char :=
  ['#', '$', '%', '&', '~', '_', '^', Char.ofNat 123, Char.ofNat 125]

/-- Global replace of `\\([#$%&~_^{}])` by `$1` (hyperref-style unescaping),
scanning left to right over non-overlapping matches. -/
def urlUnescape : List Char → List Char
  | c1 :: c2 :: rest =>
    if c1 = '\\' && urlEscSet.contains c2 then c2 :: urlUnescape rest
    else c1 :: urlUnescape (c2 :: rest)
  | l => l

/-- Test for `/^\\verb[^a-zA-Z]/`. -/
def verbPat (t : String) : Bool :=
  match t.toList with
  | '\\' :: 'v' :: 'e' :: 'r' :: 'b' :: c :: _ => !c.isAlpha
  | _ => false

/-- Combining diacritical mark (the class `[̀-ͯ]` of
`combiningDiacriticalMarksEndRegex`). -/
def isCombining (c : Char) : Bool :=
  0x300 ≤ c.toNat && c.toNat ≤ 0x36f

/-- Split a token text into its stem and the maximal trailing run of
combining diacritical marks (the `combiningDiacriticalMarksEndRegex` match). -/
def splitCombining (t : String) : String × String :=
  let cs := t.toList
  let marksRev := cs.reverse.takeWhile isCombining
  (String.mk (cs.take (cs.length - marksRev.length)), String.mk marksRev.reverse)

/-- Code unit of the first character (JS `charCodeAt(0)`; tokens are
nonempty, 0 is returned for the empty string). -/
def firstCode (t : String) : Nat :=
  match t.toList with
  | c :: _ => c.toNat
  | [] => 0

/-! ### External read-only tables -/

/-- Modelled from the spec: `ATOMS` is the set of atom family names
`{bin, close, inner, open, punct, rel}` (symbols module is external). -/
def ATOMS : List String :=
  ["bin", "close", "inner", "open", "punct", "rel"]

/-- Modelled from the spec: the symbol tables `symbols[mode][text] = {group}`
(symbols module is external).  A small concrete table adequate for the
claims: a handful of letters resolve to `mathord` in math mode and `textord`
in text mode, digits to `textord`. -/
def symbolsTable (m : Mode) (t : String) : Option String :=
  match m with
  | Mode.math =>
    if t = "a" || t = "b" || t = "c" || t = "x" || t = "y" then some "mathord"
    else if t = "1" || t = "2" || t = "3" then some "textord"
    else none
  | Mode.text =>
    if t = "a" || t = "b" || t = "x" || t = "-" then some "textord"
    else none

/-- Modelled from the spec: `implicitCommands`, the set of control-sequence
texts that may legitimately produce no node (MacroExpander is external; the
spec leaves the membership unspecified, and the claims only need
non-membership, so the empty set is used). -/
def implicitCommandsT : String → Bool :=
  fun _ => false

/-- Modelled from the spec: `unicodeSymbols` (character → expanded text);
entries are elided—the claims never reach a Unicode expansion. -/
def unicodeSymbolsT : String → Option String :=
  fun _ => none

/-- Modelled from the spec: `unicodeAccents[mark][mode]` (combining mark →
per-mode control-sequence name); entries are elided. -/
def unicodeAccentsT : String → Option (Mode → Option String) :=
  fun _ => none

/-- Modelled from the spec: `validUnit` accepts the recognized TeX units
(units module is external). -/
def validUnitB (u : String) : Bool :=
  ["pt", "mm", "cm", "in", "bp", "pc", "dd", "cc", "nd", "nc",
   "sp", "px", "em", "ex", "mu"].contains u

/-! ### Function registry -/

/-- Registered function data (`FunctionSpec`).  The `infix` flag of the
source is spelled `infx`.  Handlers receive the current mode in place of
the full context (the registered handlers modelled here read nothing else). -/
structure FunctionSpec where
  numArgs : Nat
  numOptionalArgs : Nat := 0
  argTypes : Option (List ArgType) := none
  greediness : Nat := 1
  allowedInText : Bool := false
  allowedInMath : Bool := true
  infx : Bool := false
  handler : Mode → List Node → List (Option Node) → Except PErr Node

/-- Modelled from the spec: the handler of the infix function `\over`
produces a node of type "infix" whose `replaceWith` is `\frac` (genfrac
module is external; spec §4.2 and glossary "Infix"). -/
def overHandler (m : Mode) (_ : List Node) (_ : List (Option Node)) : Except PErr Node :=
  Except.ok (Node.infx m "\\frac")

/-- Modelled from the spec: the handler of `\frac` builds a fraction node
from its two ordgroup arguments (genfrac module is external; spec §8
`\frac{1}{2}` row). -/
def fracHandler (m : Mode) (args : List Node) (_ : List (Option Node)) : Except PErr Node :=
  match args with
  | [numer, denom] => Except.ok (Node.genfrac m numer denom)
  | _ => Except.error "frac: expected two arguments"

/-- Handler of `\zInput` (functions/zInput.js): default width 1.7em,
overridden by the optional size argument when present; the index is
`parseInt` of the raw argument's string. -/
def zInputHandler (m : Mode) (args : List Node) (optArgs : List (Option Node)) : Except PErr Node :=
  let widthE : Except PErr SizeValue :=
    match optArgs.head? with
    | some (some w) =>
      match w with
      | Node.sizeN _ v _ => Except.ok v
      | _ => Except.error "Expected node of type size"
    | _ => Except.ok { number := 1.7, unit := "em" }
  match widthE with
  | Except.error e => Except.error e
  | Except.ok width =>
    match args.head? with
    | some (Node.rawN _ str) => Except.ok (Node.zInputN m (jsParseInt str) width)
    | _ => Except.error "Expected node of type raw"

/-- Registration data of `\over` (Modelled from the spec: genfrac module is
external; `numArgs: 0`, the infix flag set, default greediness 1). -/
def overSpec : FunctionSpec :=
  { numArgs := 0, infx := true, handler := overHandler }

/-- Registration data of `\frac` (Modelled from the spec: genfrac module is
external; two arguments, greediness 2). -/
def fracSpec : FunctionSpec :=
  { numArgs := 2, greediness := 2, handler := fracHandler }

/-- Registration data of `\zInput` (functions/zInput.js): one mandatory and
one optional argument with `argTypes: ["size", "raw"]`, allowed in text. -/
def zInputSpec : FunctionSpec :=
  { numArgs := 1, numOptionalArgs := 1,
    argTypes := some [ArgType.size, ArgType.raw],
    allowedInText := true, handler := zInputHandler }

/-- The function registry `functions[name]` (external; the three entries the
claims exercise). -/
def functionsT (name : String) : Option FunctionSpec :=
  if name = "\\over" then some overSpec
  else if name = "\\frac" then some fracSpec
  else if name = "\\zInput" then some zInputSpec
  else none

/-! ### Parser pieces without parser recursion -/

/-- Static `endOfExpression` terminator list. -/
def endOfExpression : List String :=
  ["\x7d", "\\endgroup", "\\end", "\\right", "&"]

/-- Static `endOfGroup` map `{"[" → "]", "{" → "}",
"\begingroup" → "\endgroup"}` (consulted only at its three keys). -/
def endOfGroupMap (t : String) : String :=
  if t = "[" then "]"
  else if t = "\x7b" then "\x7d"
  else "\\endgroup"

/-- The greediness of a superscript or subscript (`SUPSUB_GREEDINESS`). -/
def SUPSUB_GREEDINESS : Nat := 1

/-- Method `formatUnsupportedCmd`: a `color` node with the configured error
color wrapping a `text` node holding one text-mode textord per character of
the command text. -/
def formatUnsupportedCmd (text : String) (s : PState) : Node :=
  let textordArray := text.toList.map (fun c => Node.symK "textord" Mode.text (String.singleton c))
  let textNode := Node.textN s.mode textordArray
  Node.colorN s.mode s.settings.errorColor [textNode]

/-- Method `callFunction`: invoke the registered handler (the modelled
handlers read the mode from the context and touch no other state). -/
def callFunction (name : String) (args : List Node) (optArgs : List (Option Node)) (m : Mode) : Except PErr Node :=
  match functionsT name with
  | some f => f.handler m args optArgs
  | none => Except.error ("No function handler for " ++ name)

/-- First scanning loop of `handleInfixNodes`: locate the node of type
"infix" together with its index and `replaceWith`; a second one raises
"only one infix operator per group". -/
def scanInfxAux : List Node → Nat → Option (Nat × Node × String) → Except PErr (Option (Nat × Node × String))
  | [], _, acc => Except.ok acc
  | b :: rest, i, acc =>
    if b.isInfx then
      match acc with
      | some _ => Except.error "only one infix operator per group"
      | none => scanInfxAux rest (i + 1) (some (i, b, b.replaceWithOf))
    else scanInfxAux rest (i + 1) acc

/-- Method `handleInfixNodes`: rewrite the (unique) infix operator of a
sibling list into its prefix replacement function. -/
def handleInfxNodes (body : List Node) (s : PState) : PRes (List Node) :=
  match scanInfxAux body 0 none with
  | Except.error e => (Except.error e, s)
  | Except.ok none => (Except.ok body, s)
  | Except.ok (some (overIndex, overNode, funcName)) =>
    if funcName ≠ "" then
      let numerBody := body.take overIndex
      let denomBody := body.drop (overIndex + 1)
      let numerNode :=
        match numerBody with
        | [n] => if n.isOrdgroup then n else Node.ordgroup s.mode numerBody false
        | _ => Node.ordgroup s.mode numerBody false
      let denomNode :=
        match denomBody with
        | [n] => if n.isOrdgroup then n else Node.ordgroup s.mode denomBody false
        | _ => Node.ordgroup s.mode denomBody false
      let res :=
        if funcName = "\\\\abovefrac" then
          callFunction funcName [numerNode, overNode, denomNode] [] s.mode
        else
          callFunction funcName [numerNode, denomNode] [] s.mode
      match res with
      | Except.ok node => (Except.ok [node], s)
      | Except.error e => (Except.error e, s)
    else (Except.ok body, s)

/-- Method `formLigatures` (text mode): collapse `---`, `--`, `''` and
"``" runs of adjacent nodes into single textords.  The in-place splice loop
is rendered as list recursion; after a collapse the scan resumes at the
element following the collapsed run, exactly as the index advance does. -/
def formLigatures : List Node → List Node
  | [] => []
  | [a] => [a]
  | [a, b] =>
    if a.textOf = some "-" ∧ b.textOf = some "-" then
      Node.symK "textord" Mode.text "--" :: formLigatures []
    else if (a.textOf = some "\x27" ∨ a.textOf = some "\x60") ∧ b.textOf = a.textOf then
      Node.symK "textord" Mode.text (a.textOf.getD "" ++ a.textOf.getD "") :: formLigatures []
    else a :: formLigatures [b]
  | a :: b :: c :: rest =>
    if a.textOf = some "-" ∧ b.textOf = some "-" then
      if c.textOf = some "-" then
        Node.symK "textord" Mode.text "---" :: formLigatures rest
      else
        Node.symK "textord" Mode.text "--" :: formLigatures (c :: rest)
    else if (a.textOf = some "\x27" ∨ a.textOf = some "\x60") ∧ b.textOf = a.textOf then
      Node.symK "textord" Mode.text (a.textOf.getD "" ++ a.textOf.getD "") :: formLigatures (c :: rest)
    else a :: formLigatures (b :: c :: rest)

/-- Accent folding at the end of `parseSymbol`: each stripped combining mark
wraps the symbol in an `accent` node (outermost = last mark), resolved via
`unicodeAccents[accent][mode]`. -/
def foldAccents (marks : List Char) (mode : Mode) (sym : Node) : Except PErr Node :=
  match marks with
  | [] => Except.ok sym
  | accent :: rest =>
    match unicodeAccentsT (String.singleton accent) with
    | none => Except.error ("Unknown accent \x27 " ++ String.singleton accent ++ "\x27")
    | some per =>
      match per mode with
      | none =>
        Except.error ("Accent " ++ String.singleton accent ++ " unsupported in " ++
          (match mode with | Mode.math => "math" | Mode.text => "text") ++ " mode")
      | some command =>
        foldAccents rest mode (Node.accentN mode command false true sym)

/-- Method `parseSymbol`: `\verb` forms, Unicode symbol expansion, combining
mark stripping with dotless i/j, symbol-table resolution, and accent
folding.  Strict-mode `reportNonstrict` diagnostics are non-fatal and
elided. -/
def parseSymbol (s : PState) : PRes (Option Node) :=
  let (nucleus, s) := fetch s
  let text := nucleus
  if verbPat text then
    let s := consumeTok s
    let arg := text.drop 5
    let star := arg.take 1 = "*"
    let arg := if star then arg.drop 1 else arg
    if arg.length < 2 || arg.take 1 ≠ arg.drop (arg.length - 1) then
      (Except.error "\\verb assertion failed -- please report what input caused this bug", s)
    else
      (Except.ok (some (Node.verb Mode.text (String.mk ((arg.toList.drop 1).dropLast)) star)), s)
  else
    let text :=
      if (unicodeSymbolsT (text.take 1)).isSome && (symbolsTable s.mode (text.take 1)).isNone then
        ((unicodeSymbolsT (text.take 1)).getD "") ++ text.drop 1
      else text
    let (stem, marks) := splitCombining text
    let text :=
      if marks ≠ "" then
        (if stem = "i" then "ı" else if stem = "j" then "ȷ" else stem)
      else text
    match symbolsTable s.mode text with
    | some group =>
      let sNode :=
        if ATOMS.contains group then Node.atomN group s.mode text
        else Node.symK group s.mode text
      let s := consumeTok s
      match foldAccents marks.toList s.mode sNode with
      | Except.ok sym => (Except.ok (some sym), s)
      | Except.error e => (Except.error e, s)
    | none =>
      if 0x80 ≤ firstCode text then
        let sNode := Node.symK "textord" Mode.text text
        let s := consumeTok s
        match foldAccents marks.toList s.mode sNode with
        | Except.ok sym => (Except.ok (some sym), s)
        | Except.error e => (Except.error e, s)
      else (Except.ok none, s)

/-- Character class `[{}[\]]` (brace or bracket), written by code point. -/
def isBraceBracket (c : Char) : Bool :=
  c.toNat = 123 || c.toNat = 125 || c.toNat = 91 || c.toNat = 93

/-! ### The mutually recursive parser methods

All methods take an explicit `fuel` argument (see the header); each level
of the source's recursion or of one of its `while` loops costs one unit. -/

mutual

/-- Method `parse`: establish the root group, parse the expression, require
`EOF`, tear down the group. -/
def parse (fuel : Nat) (s : PState) : PRes (List Node) :=
match fuel with
| 0 => (Except.error fuelErr, s)
| n + 1 =>
  let s := if s.settings.globalGroup then s else beginGroup s
  let s := if s.settings.colorIsTextColor then
      { s with mTable := ("\\color", "\\textcolor") :: s.mTable } else s
  match parseExpression n false none s with
  | (Except.error e, s) => (Except.error e, s)
  | (Except.ok res, s) =>
    match expect "EOF" true s with
    | (Except.error e, s) => (Except.error e, s)
    | (Except.ok _, s) =>
      let s := if s.settings.globalGroup then s else endGroup s
      (Except.ok res, s)

/-- Method `parseExpression`: collect atoms, then form ligatures in text
mode and rewrite infix operators. -/
def parseExpression (fuel : Nat) (breakOnInfx : Bool) (breakOnTokenText : Option String)
    (s : PState) : PRes (List Node) :=
match fuel with
| 0 => (Except.error fuelErr, s)
| n + 1 =>
  match parseExprAtoms n breakOnInfx breakOnTokenText s with
  | (Except.error e, s) => (Except.error e, s)
  | (Except.ok body, s) =>
    let body := if s.mode = Mode.text then formLigatures body else body
    handleInfxNodes body s

/-- The atom-collecting loop of `parseExpression`: skip spaces in math
mode, stop on a terminator, the break token, an infix function under
`breakOnInfix`, or a null atom. -/
def parseExprAtoms (fuel : Nat) (breakOnInfx : Bool) (breakOnTokenText : Option String)
    (s : PState) : PRes (List Node) :=
match fuel with
| 0 => (Except.error fuelErr, s)
| n + 1 =>
  let s := if s.mode = Mode.math then consumeSpaces s else s
  let (lex, s) := fetch s
  if endOfExpression.contains lex then (Except.ok [], s)
  else if breakOnTokenText = some lex then (Except.ok [], s)
  else if breakOnInfx && (match functionsT lex with | some f => f.infx | none => false) then
    (Except.ok [], s)
  else
    match parseAtom n breakOnTokenText s with
    | (Except.error e, s) => (Except.error e, s)
    | (Except.ok none, s) => (Except.ok [], s)
    | (Except.ok (some atom), s) =>
      match parseExprAtoms n breakOnInfx breakOnTokenText s with
      | (Except.error e, s) => (Except.error e, s)
      | (Except.ok rest, s) => (Except.ok (atom :: rest), s)

/-- Method `parseAtom`: parse a base group, then (math mode only) scan
postfix `\limits`/`\nolimits`, `^`, `_` and primes; wrap in `supsub` iff a
super- or subscript was set. -/
def parseAtom (fuel : Nat) (breakOnTokenText : Option String) (s : PState) : PRes (Option Node) :=
match fuel with
| 0 => (Except.error fuelErr, s)
| n + 1 =>
  match parseGroup n "atom" false none breakOnTokenText none false s with
  | (Except.error e, s) => (Except.error e, s)
  | (Except.ok base, s) =>
    if s.mode = Mode.text then (Except.ok base, s)
    else
      match parseAtomLoop n base none none s with
      | (Except.error e, s) => (Except.error e, s)
      | (Except.ok (base2, sup, sub), s) =>
        if sup.isSome || sub.isSome then
          (Except.ok (some (Node.supsub s.mode base2 sup sub)), s)
        else (Except.ok base2, s)

/-- The postfix-modifier `while` loop of `parseAtom`, carrying the mutable
`base`, `superscript` and `subscript` locals. -/
def parseAtomLoop (fuel : Nat) (base sup sub : Option Node) (s : PState) :
    PRes (Option Node × Option Node × Option Node) :=
match fuel with
| 0 => (Except.error fuelErr, s)
| n + 1 =>
  let s := consumeSpaces s
  let (lex, s) := fetch s
  if lex = "\\limits" ∨ lex = "\\nolimits" then
    match base with
    | some (Node.op m _ _ t) =>
      let limits := lex = "\\limits"
      parseAtomLoop n (some (Node.op m limits true t)) sup sub (consumeTok s)
    | some (Node.operatorname m _ ahss) =>
      if ahss then
        let limits := lex = "\\limits"
        parseAtomLoop n (some (Node.operatorname m limits ahss)) sup sub (consumeTok s)
      else (Except.error "Limit controls must follow a math operator", s)
    | _ => (Except.error "Limit controls must follow a math operator", s)
  else if lex = "^" then
    if sup.isSome then (Except.error "Double superscript", s)
    else
      match handleSupSubscript n "superscript" s with
      | (Except.error e, s) => (Except.error e, s)
      | (Except.ok g, s) => parseAtomLoop n base (some g) sub s
  else if lex = "_" then
    if sub.isSome then (Except.error "Double subscript", s)
    else
      match handleSupSubscript n "subscript" s with
      | (Except.error e, s) => (Except.error e, s)
      | (Except.ok g, s) => parseAtomLoop n base sup (some g) s
  else if lex = "\x27" then
    if sup.isSome then (Except.error "Double superscript", s)
    else
      let prime := Node.symK "textord" s.mode "\\prime"
      let s := consumeTok s
      match primesLoop n prime [prime] s with
      | (Except.error e, s) => (Except.error e, s)
      | (Except.ok primes, s) =>
        let (t2, s) := fetch s
        if t2 = "^" then
          match handleSupSubscript n "superscript" s with
          | (Except.error e, s) => (Except.error e, s)
          | (Except.ok g, s) =>
            parseAtomLoop n base (some (Node.ordgroup s.mode (primes ++ [g]) false)) sub s
        else
          parseAtomLoop n base (some (Node.ordgroup s.mode primes false)) sub s
  else (Except.ok (base, sup, sub), s)

/-- The inner prime-collecting `while` loop of `parseAtom`: one more copy of
the prime textord per consecutive `'` token. -/
def primesLoop (fuel : Nat) (prime : Node) (primes : List Node) (s : PState) : PRes (List Node) :=
match fuel with
| 0 => (Except.error fuelErr, s)
| n + 1 =>
  let (t, s) := fetch s
  if t = "\x27" then primesLoop n prime (primes ++ [prime]) (consumeTok s)
  else (Except.ok primes, s)

/-- Method `handleSupSubscript`: consume the operator token and parse its
group with `SUPSUB_GREEDINESS`, consuming spaces first. -/
def handleSupSubscript (fuel : Nat) (name : String) (s : PState) : PRes Node :=
match fuel with
| 0 => (Except.error fuelErr, s)
| n + 1 =>
  let (symbol, s) := fetch s
  let s := consumeTok s
  match parseGroup n name false (some SUPSUB_GREEDINESS) none none true s with
  | (Except.error e, s) => (Except.error e, s)
  | (Except.ok none, s) =>
    (Except.error ("Expected group after \x27" ++ symbol ++ "\x27"), s)
  | (Except.ok (some g), s) => (Except.ok g, s)

/-- Method `parseGroup`: optionally switch mode (restored only on normal
completion, as in the source), optionally consume spaces, then parse a
delimited group, an optional-absent null, a function, a symbol, or the
unsupported-command fallback. -/
def parseGroup (fuel : Nat) (name : String) (optional : Bool) (greediness : Option Nat)
    (breakOnTokenText : Option String) (modeArg : Option Mode) (consumeSp : Bool)
    (s : PState) : PRes (Option Node) :=
match fuel with
| 0 => (Except.error fuelErr, s)
| n + 1 =>
  let outerMode := s.mode
  let s := match modeArg with | some m => switchMode m s | none => s
  let s := if consumeSp then consumeSpaces s else s
  let (firstToken, s) := fetch s
  let text := firstToken
  let inner : PRes (Option Node) :=
    if (if optional then text = "[" else (text = "\x7b" || text = "\\begingroup")) then
      let s := consumeTok s
      let groupEnd := endOfGroupMap text
      let s := beginGroup s
      match parseExpression n false (some groupEnd) s with
      | (Except.error e, s) => (Except.error e, s)
      | (Except.ok expression, s) =>
        let (_lastToken, s) := fetch s
        match expect groupEnd true s with
        | (Except.error e, s) => (Except.error e, s)
        | (Except.ok _, s) =>
          let s := endGroup s
          (Except.ok (some (Node.ordgroup s.mode expression (text = "\\begingroup"))), s)
    else if optional then (Except.ok none, s)
    else
      match parseFunction n breakOnTokenText (some name) greediness s with
      | (Except.error e, s) => (Except.error e, s)
      | (Except.ok (some f), s) => (Except.ok (some f), s)
      | (Except.ok none, s) =>
        match parseSymbol s with
        | (Except.error e, s) => (Except.error e, s)
        | (Except.ok (some sym), s) => (Except.ok (some sym), s)
        | (Except.ok none, s) =>
          if text.take 1 = "\\" && !implicitCommandsT text then
            if s.settings.throwOnError then
              (Except.error ("Undefined control sequence: " ++ text), s)
            else
              (Except.ok (some (formatUnsupportedCmd text s)), consumeTok s)
          else (Except.ok none, s)
  match inner with
  | (Except.error e, s1) => (Except.error e, s1)
  | (Except.ok r, s1) =>
    (Except.ok r, match modeArg with | some _ => switchMode outerMode s1 | none => s1)

/-- Method `parseFunction`: registry lookup, command consumption, the
greediness and mode preconditions, argument parsing and handler call.
The `breakOnTokenText` parameter feeds only the handler context in the
source, which the modelled handlers ignore. -/
def parseFunction (fuel : Nat) (_breakOnTokenText : Option String) (name : Option String)
    (greediness : Option Nat) (s : PState) : PRes (Option Node) :=
match fuel with
| 0 => (Except.error fuelErr, s)
| n + 1 =>
  let (token, s) := fetch s
  let func := token
  match functionsT func with
  | none => (Except.ok none, s)
  | some funcData =>
    let s := consumeTok s
    if (match greediness with | some g => decide (funcData.greediness ≤ g) | none => false) then
      (Except.error ("Got function \x27" ++ func ++ "\x27 with no arguments" ++
        (match name with | some nm => " as " ++ nm | none => "")), s)
    else if s.mode = Mode.text && !funcData.allowedInText then
      (Except.error ("Can\x27t use function \x27" ++ func ++ "\x27 in text mode"), s)
    else if s.mode = Mode.math && funcData.allowedInMath = false then
      (Except.error ("Can\x27t use function \x27" ++ func ++ "\x27 in math mode"), s)
    else
      match parseArguments n func funcData s with
      | (Except.error e, s) => (Except.error e, s)
      | (Except.ok (args, optArgs), s) =>
        match callFunction func args optArgs s.mode with
        | Except.ok node => (Except.ok (some node), s)
        | Except.error e => (Except.error e, s)

/-- Method `parseArguments`: parse `numArgs + numOptionalArgs` argument
positions. -/
def parseArguments (fuel : Nat) (func : String) (funcData : FunctionSpec) (s : PState) :
    PRes (List Node × List (Option Node)) :=
match fuel with
| 0 => (Except.error fuelErr, s)
| n + 1 =>
  let totalArgs := funcData.numArgs + funcData.numOptionalArgs
  if totalArgs = 0 then (Except.ok ([], []), s)
  else parseArgsAux n func funcData 0 [] [] s

/-- The per-position loop of `parseArguments`: optional positions come
first; spaces are consumed between mandatory arguments and before a first
mandatory argument in math mode. -/
def parseArgsAux (fuel : Nat) (func : String) (funcData : FunctionSpec) (i : Nat)
    (args : List Node) (optArgs : List (Option Node)) (s : PState) :
    PRes (List Node × List (Option Node)) :=
match fuel with
| 0 => (Except.error fuelErr, s)
| n + 1 =>
  if i < funcData.numArgs + funcData.numOptionalArgs then
    let argType := funcData.argTypes.bind (fun ts => ts.get? i)
    let isOptional := decide (i < funcData.numOptionalArgs)
    let consumeSp := (decide (0 < i) && !isOptional) ||
      (decide (i = 0) && !isOptional && decide (s.mode = Mode.math))
    match parseGroupOfType n ("argument to \x27" ++ func ++ "\x27") argType isOptional
        (some funcData.greediness) consumeSp s with
    | (Except.error e, s) => (Except.error e, s)
    | (Except.ok none, s) =>
      if isOptional then parseArgsAux n func funcData (i + 1) args (optArgs ++ [none]) s
      else (Except.error ("Expected group after \x27" ++ func ++ "\x27"), s)
    | (Except.ok (some arg), s) =>
      if isOptional then parseArgsAux n func funcData (i + 1) args (optArgs ++ [some arg]) s
      else parseArgsAux n func funcData (i + 1) (args ++ [arg]) optArgs s
  else (Except.ok (args, optArgs), s)

/-- Method `parseGroupOfType`: dispatch on the declared argument type.  The
source's default branch ("Unknown group type") is unreachable over the
closed `ArgType`. -/
def parseGroupOfType (fuel : Nat) (name : String) (type? : Option ArgType) (optional : Bool)
    (greediness : Option Nat) (consumeSp : Bool) (s : PState) : PRes (Option Node) :=
match fuel with
| 0 => (Except.error fuelErr, s)
| n + 1 =>
  match type? with
  | some ArgType.color =>
    let s := if consumeSp then consumeSpaces s else s
    parseColorGroup n optional s
  | some ArgType.size =>
    let s := if consumeSp then consumeSpaces s else s
    parseSizeGroup n optional s
  | some ArgType.url => parseUrlGroup n optional consumeSp s
  | some ArgType.math => parseGroup n name optional greediness none (some Mode.math) consumeSp s
  | some ArgType.text => parseGroup n name optional greediness none (some Mode.text) consumeSp s
  | some ArgType.hbox =>
    match parseGroup n name optional greediness none (some Mode.text) consumeSp s with
    | (Except.error e, s) => (Except.error e, s)
    | (Except.ok none, s) => (Except.ok none, s)
    | (Except.ok (some group), s) =>
      (Except.ok (some (Node.styling group.modeOf "text" [group])), s)
  | some ArgType.raw =>
    let s := if consumeSp then consumeSpaces s else s
    let (t, s) := fetch s
    if optional && t = "\x7b" then (Except.ok none, s)
    else
      match parseStringGroup n "raw" optional true s with
      | (Except.error e, s) => (Except.error e, s)
      | (Except.ok (some tok), s) => (Except.ok (some (Node.rawN Mode.text tok)), s)
      | (Except.ok none, s) => (Except.error "Expected raw group", s)
  | some ArgType.original => parseGroup n name optional greediness none none consumeSp s
  | none => parseGroup n name optional greediness none none consumeSp s

/-- Method `parseStringGroup`: the string formed by the brace- (or
bracket-) enclosed tokens; `raw` admits a single non-delimiter token and
nested braces. -/
def parseStringGroup (fuel : Nat) (modeName : String) (optional : Bool) (raw : Bool)
    (s : PState) : PRes (Option String) :=
match fuel with
| 0 => (Except.error fuelErr, s)
| n + 1 =>
  let groupBegin := if optional then "[" else "\x7b"
  let groupEnd := if optional then "]" else "\x7d"
  let (beginToken, s) := fetch s
  if beginToken ≠ groupBegin ∧ optional then (Except.ok none, s)
  else if beginToken ≠ groupBegin ∧ raw ∧ beginToken ≠ "EOF" ∧
      beginToken.toList.any (fun c => !isBraceBracket c) then
    (Except.ok (some beginToken), consumeTok s)
  else
    let outerMode := s.mode
    let s := { s with mode := Mode.text }
    match expect groupBegin true s with
    | (Except.error e, s) => (Except.error e, s)
    | (Except.ok _, s) =>
      match parseStrLoop n groupBegin groupEnd raw modeName "" 0 s with
      | (Except.error e, s) => (Except.error e, s)
      | (Except.ok str, s) =>
        match expect groupEnd true s with
        | (Except.error e, s) => (Except.error e, s)
        | (Except.ok _, s) => (Except.ok (some str), { s with mode := outerMode })

/-- The accumulation `while` loop of `parseStringGroup`, tracking the
nesting counter used in raw mode. -/
def parseStrLoop (fuel : Nat) (groupBegin groupEnd : String) (raw : Bool) (modeName : String)
    (str : String) (nested : Int) (s : PState) : PRes String :=
match fuel with
| 0 => (Except.error fuelErr, s)
| n + 1 =>
  let (nextTok, s) := fetch s
  if nextTok ≠ groupEnd ∨ (raw ∧ nested > 0) then
    if nextTok = "EOF" then
      (Except.error ("Unexpected end of input in " ++ modeName), s)
    else
      let nested := if nextTok = groupBegin then nested + 1
                    else if nextTok = groupEnd then nested - 1 else nested
      parseStrLoop n groupBegin groupEnd raw modeName (str ++ nextTok) nested (consumeTok s)
  else (Except.ok str, s)

/-- Method `parseRegexGroup`: the largest token sequence whose concatenated
text matches the pattern (regexes are modelled as string predicates). -/
def parseRegexGroup (fuel : Nat) (pat : String → Bool) (modeName : String) (s : PState) :
    PRes String :=
match fuel with
| 0 => (Except.error fuelErr, s)
| n + 1 =>
  let outerMode := s.mode
  let s := { s with mode := Mode.text }
  let (firstToken, s) := fetch s
  match parseRegexLoop n pat "" s with
  | (Except.error e, s) => (Except.error e, s)
  | (Except.ok str, s) =>
    if str = "" then
      (Except.error ("Invalid " ++ modeName ++ ": \x27" ++ firstToken ++ "\x27"), s)
    else (Except.ok str, { s with mode := outerMode })

/-- The accumulation `while` loop of `parseRegexGroup`. -/
def parseRegexLoop (fuel : Nat) (pat : String → Bool) (str : String) (s : PState) : PRes String :=
match fuel with
| 0 => (Except.error fuelErr, s)
| n + 1 =>
  let (nextTok, s) := fetch s
  if nextTok ≠ "EOF" ∧ pat (str ++ nextTok) then
    parseRegexLoop n pat (str ++ nextTok) (consumeTok s)
  else (Except.ok str, s)

/-- Method `parseColorGroup`: string group, color regex, `#`-prefixing of
bare six-hex-digit colors, `color-token` node. -/
def parseColorGroup (fuel : Nat) (optional : Bool) (s : PState) : PRes (Option Node) :=
match fuel with
| 0 => (Except.error fuelErr, s)
| n + 1 =>
  match parseStringGroup n "color" optional false s with
  | (Except.error e, s) => (Except.error e, s)
  | (Except.ok none, s) => (Except.ok none, s)
  | (Except.ok (some res), s) =>
    if colorPat res then
      let color := if sixHexPat res then "#" ++ res else res
      (Except.ok (some (Node.colorToken s.mode color)), s)
    else (Except.error ("Invalid color: \x27" ++ res ++ "\x27"), s)

/-- Method `parseSizeGroup`: regex group outside braces, string group
inside; empty mandatory text becomes `0pt` with `isBlank`; magnitude and
unit extracted and the unit validated. -/
def parseSizeGroup (fuel : Nat) (optional : Bool) (s : PState) : PRes (Option Node) :=
match fuel with
| 0 => (Except.error fuelErr, s)
| n + 1 =>
  let (t0, s) := fetch s
  let resR : PRes (Option String) :=
    if ¬optional ∧ t0 ≠ "\x7b" then
      match parseRegexGroup n sizePat "size" s with
      | (Except.error e, s) => (Except.error e, s)
      | (Except.ok str, s) => (Except.ok (some str), s)
    else parseStringGroup n "size" optional false s
  match resR with
  | (Except.error e, s) => (Except.error e, s)
  | (Except.ok none, s) => (Except.ok none, s)
  | (Except.ok (some res0), s) =>
    let (res, isBlank) :=
      if ¬optional ∧ res0.length = 0 then ("0pt", true) else (res0, false)
    match firstSizeMatch res with
    | none => (Except.error ("Invalid size: \x27" ++ res ++ "\x27"), s)
    | some (number, unit) =>
      if validUnitB unit then
        (Except.ok (some (Node.sizeN s.mode { number := number, unit := unit } isBlank)), s)
      else (Except.error ("Invalid unit: \x27" ++ unit ++ "\x27"), s)

/-- Method `parseUrlGroup`: catcode of `%` set to 13 (active) before the
raw string group and to 14 (comment) after its normal return; hyperref
escapes unescaped.  The `consumeSpaces` parameter is unused, as in the
source. -/
def parseUrlGroup (fuel : Nat) (optional : Bool) (_consumeSp : Bool) (s : PState) :
    PRes (Option Node) :=
match fuel with
| 0 => (Except.error fuelErr, s)
| n + 1 =>
  let s := setCatcode "%" 13 s
  match parseStringGroup n "url" optional true s with
  | (Except.error e, s) => (Except.error e, s)
  | (Except.ok res?, s) =>
    let s := setCatcode "%" 14 s
    match res? with
    | none => (Except.ok none, s)
    | some res =>
      let url := String.mk (urlUnescape res.toList)
      (Except.ok (some (Node.urlN s.mode url)), s)

end

/-! ### Tree predicates about nodes of type "infix" -/

mutual

/-- Does the tree below a node contain a node of type "infix" anywhere
(including as a supsub base or inside any body list)? -/
def hasInfxN : Node → Bool
  | .infx _ _ => true
  | .ordgroup _ body _ => hasInfxL body
  | .supsub _ b s1 s2 => hasInfxO b || hasInfxO s1 || hasInfxO s2
  | .colorN _ _ body => hasInfxL body
  | .textN _ body => hasInfxL body
  | .styling _ _ body => hasInfxL body
  | .accentN _ _ _ _ b => hasInfxN b
  | .genfrac _ a b => hasInfxN a || hasInfxN b
  | _ => false

/-- Optional-node version of `hasInfxN`. -/
def hasInfxO : Option Node → Bool
  | none => false
  | some n => hasInfxN n

/-- List version of `hasInfxN`. -/
def hasInfxL : List Node → Bool
  | [] => false
  | n :: l => hasInfxN n || hasInfxL l

end

mutual

/-- No node of type "infix" occurs as a direct element of any `ordgroup`
body anywhere below this node (the element-wise no-infix invariant; an
infix node itself, e.g. as a supsub base, is not excluded). -/
def noInfxElemN : Node → Bool
  | .ordgroup _ body _ => noInfxElemLStrict body
  | .supsub _ b s1 s2 => noInfxElemO b && noInfxElemO s1 && noInfxElemO s2
  | .colorN _ _ body => noInfxElemL body
  | .textN _ body => noInfxElemL body
  | .styling _ _ body => noInfxElemL body
  | .accentN _ _ _ _ b => noInfxElemN b
  | .genfrac _ a b => noInfxElemN a && noInfxElemN b
  | _ => true

/-- Optional-node version of `noInfxElemN`. -/
def noInfxElemO : Option Node → Bool
  | none => true
  | some n => noInfxElemN n

/-- Strict list version: no element is of type "infix", and every element
satisfies `noInfxElemN` recursively. -/
def noInfxElemLStrict : List Node → Bool
  | [] => true
  | n :: l => !n.isInfx && noInfxElemN n && noInfxElemLStrict l

/-- Element-wise (non-strict) list version of `noInfxElemN`. -/
def noInfxElemL : List Node → Bool
  | [] => true
  | n :: l => noInfxElemN n && noInfxElemL l

end

mutual

/-- Every node of type "infix" anywhere below carries the `replaceWith`
value `\frac` (the only replacement the modelled registry ever writes;
used as a strengthening invariant for the no-infix-element theorem). -/
def rwGoodN : Node → Bool
  | .infx _ rw => rw = "\\frac"
  | .ordgroup _ body _ => rwGoodL body
  | .supsub _ b s1 s2 => rwGoodO b && rwGoodO s1 && rwGoodO s2
  | .colorN _ _ body => rwGoodL body
  | .textN _ body => rwGoodL body
  | .styling _ _ body => rwGoodL body
  | .accentN _ _ _ _ b => rwGoodN b
  | .genfrac _ a b => rwGoodN a && rwGoodN b
  | _ => true

/-- Optional-node version of `rwGoodN`. -/
def rwGoodO : Option Node → Bool
  | none => true
  | some n => rwGoodN n

/-- List version of `rwGoodN`. -/
def rwGoodL : List Node → Bool
  | [] => true
  | n :: l => rwGoodN n && rwGoodL l

end

/-- Intermediate parser state reached during a concrete math-mode run with
default settings (used by the concrete execution proofs). -/
def midState (toks : List String) (look : Option String) (depth : Int) : PState :=
  { mode := Mode.math, tokens := toks, nextToken := look, catcode := defaultCatcode,
    groupDepth := depth, mTable := [], settings := {} }

/-- Combined tree invariant: no infix node as an ordgroup-body element
anywhere below, and every infix node below carries `replaceWith = \frac`. -/
def InvN (nd : Node) : Prop := noInfxElemN nd = true ∧ rwGoodN nd = true

/-- Optional-node form of `InvN`. -/
def InvO (o : Option Node) : Prop := ∀ nd, o = some nd → InvN nd

/-- Element-wise form of `InvN` for lists. -/
def InvL (l : List Node) : Prop := ∀ nd ∈ l, InvN nd

/-- Strict list invariant: additionally no element is an infix node. -/
def StrictL (l : List Node) : Prop := noInfxElemLStrict l = true ∧ rwGoodL l = true

/-- Induction statement for `parse`: successful results are strict. -/
def ParseInv (fuel : Nat) : Prop :=
  ∀ s r s', parse fuel s = (Except.ok r, s') → StrictL r

/-- Induction statement for `parseExpression`: successful results are
strict (no element-level infix node survives `handleInfixNodes`). -/
def PExprInv (fuel : Nat) : Prop :=
  ∀ bOI bOTT s r s', parseExpression fuel bOI bOTT s = (Except.ok r, s') → StrictL r

/-- Induction statement for the atom loop of `parseExpression`: every
collected atom satisfies the node invariant. -/
def PExprAtomsInv (fuel : Nat) : Prop :=
  ∀ bOI bOTT s r s', parseExprAtoms fuel bOI bOTT s = (Except.ok r, s') → InvL r

/-- Induction statement for `parseAtom`. -/
def PAtomInv (fuel : Nat) : Prop :=
  ∀ bOTT s r s', parseAtom fuel bOTT s = (Except.ok r, s') → InvO r

/-- Induction statement for the postfix loop of `parseAtom`. -/
def PAtomLoopInv (fuel : Nat) : Prop :=
  ∀ base sup sub s r s', parseAtomLoop fuel base sup sub s = (Except.ok r, s') →
    InvO base → InvO sup → InvO sub → InvO r.1 ∧ InvO r.2.1 ∧ InvO r.2.2

/-- Induction statement for the prime loop of `parseAtom`. -/
def PrimesInv (fuel : Nat) : Prop :=
  ∀ prime primes s r s', primesLoop fuel prime primes s = (Except.ok r, s') →
    (∀ nd ∈ primes, InvN nd ∧ nd.isInfx = false) →
    InvN prime ∧ prime.isInfx = false →
    ∀ nd ∈ r, InvN nd ∧ nd.isInfx = false

/-- Induction statement for `handleSupSubscript`: script groups are
invariant and never infix nodes. -/
def HSSInv (fuel : Nat) : Prop :=
  ∀ name s r s', handleSupSubscript fuel name s = (Except.ok r, s') →
    InvN r ∧ r.isInfx = false

/-- Induction statement for `parseGroup`: the result is invariant, and it
is never an infix node when a greediness of at least 1 was passed (the
infix `\over` has greediness 1, which fails `parseFunction`'s check). -/
def PGroupInv (fuel : Nat) : Prop :=
  ∀ name opt gre bOTT modeArg cSp s r s',
    parseGroup fuel name opt gre bOTT modeArg cSp s = (Except.ok r, s') →
    InvO r ∧ ∀ g nd, gre = some g → 1 ≤ g → r = some nd → nd.isInfx = false

/-- Induction statement for `parseFunction` (same shape as `parseGroup`). -/
def PFuncInv (fuel : Nat) : Prop :=
  ∀ bOTT name gre s r s', parseFunction fuel bOTT name gre s = (Except.ok r, s') →
    InvO r ∧ ∀ g nd, gre = some g → 1 ≤ g → r = some nd → nd.isInfx = false

/-- Induction statement for `parseArguments`. -/
def PArgsInv (fuel : Nat) : Prop :=
  ∀ func funcData s r s', parseArguments fuel func funcData s = (Except.ok r, s') →
    InvL r.1 ∧ ∀ o ∈ r.2, InvO o

/-- Induction statement for the per-position loop of `parseArguments`. -/
def PArgsAuxInv (fuel : Nat) : Prop :=
  ∀ func funcData i args optArgs s r s',
    parseArgsAux fuel func funcData i args optArgs s = (Except.ok r, s') →
    InvL args → (∀ o ∈ optArgs, InvO o) → InvL r.1 ∧ ∀ o ∈ r.2, InvO o

/-- Induction statement for `parseGroupOfType` (same shape as
`parseGroup`). -/
def PGroupTypeInv (fuel : Nat) : Prop :=
  ∀ name type? opt gre cSp s r s',
    parseGroupOfType fuel name type? opt gre cSp s = (Except.ok r, s') →
    InvO r ∧ ∀ g nd, gre = some g → 1 ≤ g → r = some nd → nd.isInfx = false

/-- Induction statement for `parseColorGroup`: color tokens are leaf
nodes. -/
def PColorInv (fuel : Nat) : Prop :=
  ∀ opt s r s', parseColorGroup fuel opt s = (Except.ok r, s') →
    InvO r ∧ ∀ nd, r = some nd → nd.isInfx = false

/-- Induction statement for `parseSizeGroup`: size nodes are leaf nodes. -/
def PSizeInv (fuel : Nat) : Prop :=
  ∀ opt s r s', parseSizeGroup fuel opt s = (Except.ok r, s') →
    InvO r ∧ ∀ nd, r = some nd → nd.isInfx = false

/-- Induction statement for `parseUrlGroup`: url nodes are leaf nodes. -/
def PUrlInv (fuel : Nat) : Prop :=
  ∀ opt cSp s r s', parseUrlGroup fuel opt cSp s = (Except.ok r, s') →
    InvO r ∧ ∀ nd, r = some nd → nd.isInfx = false

/-! ### Theorems -/

/-- C10: the `\zInput` function is registered with `numArgs = 1` and
`numOptionalArgs = 1` and `argTypes = [size, raw]` — so its single optional
argument (position 0) has type size and its single mandatory argument
(position 1) has type raw — and its handler returns a node whose `width` is
the optional size argument's value when that argument is present and
`{number: 1.7, unit: "em"}` otherwise, and whose `index` is `parseInt` of
the raw argument's string. -/
theorem C10_zInput :
    functionsT "\\zInput" = some zInputSpec ∧
    zInputSpec.numArgs = 1 ∧
    zInputSpec.numOptionalArgs = 1 ∧
    zInputSpec.argTypes = some [ArgType.size, ArgType.raw] ∧
    (∀ (m m1 m2 : Mode) (str : String) (v : SizeValue) (blank : Bool),
      zInputHandler m [Node.rawN m1 str] [some (Node.sizeN m2 v blank)] =
        Except.ok (Node.zInputN m (jsParseInt str) v)) ∧
    (∀ (m m1 : Mode) (str : String),
      zInputHandler m [Node.rawN m1 str] [none] =
        Except.ok (Node.zInputN m (jsParseInt str) { number := 1.7, unit := "em" })) := by
  refine ⟨rfl, rfl, rfl, rfl, ?_, ?_⟩ <;> intros <;> rfl

/-- Helper: one-step unfolding of `formLigatures` on a two-element list. -/
theorem formLigatures_two (a b : Node) :
    formLigatures [a, b] =
      if a.textOf = some "-" ∧ b.textOf = some "-" then
        Node.symK "textord" Mode.text "--" :: formLigatures []
      else if (a.textOf = some "\x27" ∨ a.textOf = some "\x60") ∧ b.textOf = a.textOf then
        Node.symK "textord" Mode.text (a.textOf.getD "" ++ a.textOf.getD "") :: formLigatures []
      else a :: formLigatures [b] :=
  rfl

/-- Helper: one-step unfolding of `formLigatures` on three or more
elements. -/
theorem formLigatures_three (a b c : Node) (rest : List Node) :
    formLigatures (a :: b :: c :: rest) =
      if a.textOf = some "-" ∧ b.textOf = some "-" then
        (if c.textOf = some "-" then
          Node.symK "textord" Mode.text "---" :: formLigatures rest
        else
          Node.symK "textord" Mode.text "--" :: formLigatures (c :: rest))
      else if (a.textOf = some "\x27" ∨ a.textOf = some "\x60") ∧ b.textOf = a.textOf then
        Node.symK "textord" Mode.text (a.textOf.getD "" ++ a.textOf.getD "") :: formLigatures (c :: rest)
      else a :: formLigatures (b :: c :: rest) :=
  rfl

/-- Helper: `formLigatures` passes the head through unchanged when the head
pair triggers no collapse. -/
theorem formLigatures_pass (a b : Node) (t : List Node)
    (h1 : ¬(a.textOf = some "-" ∧ b.textOf = some "-"))
    (h2 : ¬((a.textOf = some "\x27" ∨ a.textOf = some "\x60") ∧ b.textOf = a.textOf)) :
    formLigatures (a :: b :: t) = a :: formLigatures (b :: t) := by
  cases t with
  | nil => rw [formLigatures_two, if_neg h1, if_neg h2]
  | cons c t2 => rw [formLigatures_three, if_neg h1, if_neg h2]

/-- Helper: `formLigatures` passes the head through whenever its text can
start no ligature. -/
theorem formLigatures_pass_head (a : Node) (l : List Node)
    (h1 : a.textOf ≠ some "-") (h2 : a.textOf ≠ some "\x27") (h3 : a.textOf ≠ some "\x60") :
    formLigatures (a :: l) = a :: formLigatures l := by
  match l with
  | [] => rfl
  | b :: t =>
    refine formLigatures_pass a b t ?_ ?_
    · rintro ⟨ha, _⟩; exact h1 ha
    · rintro ⟨ha | ha, _⟩
      · exact h2 ha
      · exact h3 ha

/-- Helper: the head of a `formLigatures` result is either the original
head or a freshly collapsed ligature textord. -/
theorem formLigatures_head (b : Node) (rest : List Node) :
    ∃ h t, formLigatures (b :: rest) = h :: t ∧
      (h = b ∨ h.textOf = some "--" ∨ h.textOf = some "---" ∨
       h.textOf = some "\x27\x27" ∨ h.textOf = some "\x60\x60") := by
  cases rest with
  | nil => exact ⟨b, [], rfl, Or.inl rfl⟩
  | cons c t =>
    by_cases hg : b.textOf = some "-" ∧ c.textOf = some "-"
    · cases t with
      | nil =>
        exact ⟨Node.symK "textord" Mode.text "--", formLigatures [],
          by rw [formLigatures_two, if_pos hg], Or.inr (Or.inl rfl)⟩
      | cons d t2 =>
        by_cases hd : d.textOf = some "-"
        · exact ⟨Node.symK "textord" Mode.text "---", formLigatures t2,
            by rw [formLigatures_three, if_pos hg, if_pos hd],
            Or.inr (Or.inr (Or.inl rfl))⟩
        · exact ⟨Node.symK "textord" Mode.text "--", formLigatures (d :: t2),
            by rw [formLigatures_three, if_pos hg, if_neg hd],
            Or.inr (Or.inl rfl)⟩
    · by_cases hq : (b.textOf = some "\x27" ∨ b.textOf = some "\x60") ∧ c.textOf = b.textOf
      · have htext : (Node.symK "textord" Mode.text
            (b.textOf.getD "" ++ b.textOf.getD "")).textOf = some "\x27\x27" ∨
            (Node.symK "textord" Mode.text
            (b.textOf.getD "" ++ b.textOf.getD "")).textOf = some "\x60\x60" := by
          rcases hq.1 with hv | hv
          · left; rw [Node.textOf, hv]; rfl
          · right; rw [Node.textOf, hv]; rfl
        cases t with
        | nil =>
          refine ⟨Node.symK "textord" Mode.text (b.textOf.getD "" ++ b.textOf.getD ""),
            formLigatures [], by rw [formLigatures_two, if_neg hg, if_pos hq], ?_⟩
          rcases htext with ht | ht
          · exact Or.inr (Or.inr (Or.inr (Or.inl ht)))
          · exact Or.inr (Or.inr (Or.inr (Or.inr ht)))
        | cons d t2 =>
          refine ⟨Node.symK "textord" Mode.text (b.textOf.getD "" ++ b.textOf.getD ""),
            formLigatures (d :: t2),
            by rw [formLigatures_three, if_neg hg, if_pos hq], ?_⟩
          rcases htext with ht | ht
          · exact Or.inr (Or.inr (Or.inr (Or.inl ht)))
          · exact Or.inr (Or.inr (Or.inr (Or.inr ht)))
      · exact ⟨b, formLigatures (c :: t), formLigatures_pass b c t hg hq, Or.inl rfl⟩

/-- Helper: idempotence of `formLigatures`, with an explicit length bound
driving the induction. -/
theorem formLigatures_idem_aux :
    ∀ (k : Nat) (l : List Node), l.length ≤ k →
      formLigatures (formLigatures l) = formLigatures l := by
  intro k
  induction k with
  | zero =>
    intro l h
    have : l = [] := List.length_eq_zero.mp (Nat.le_zero.mp h)
    subst this; rfl
  | succ k ih =>
    intro l h
    match l with
    | [] => rfl
    | [a] => rfl
    | a :: b :: rest =>
      by_cases hg : a.textOf = some "-" ∧ b.textOf = some "-"
      · match rest with
        | [] =>
          rw [formLigatures_two, if_pos hg]
          rfl
        | c :: rest2 =>
          by_cases hc : c.textOf = some "-"
          · rw [formLigatures_three, if_pos hg, if_pos hc,
              formLigatures_pass_head _ _ (by rw [Node.textOf]; decide)
                (by rw [Node.textOf]; decide) (by rw [Node.textOf]; decide),
              ih rest2 (by simp at h; omega)]
          · rw [formLigatures_three, if_pos hg, if_neg hc,
              formLigatures_pass_head _ _ (by rw [Node.textOf]; decide)
                (by rw [Node.textOf]; decide) (by rw [Node.textOf]; decide),
              ih (c :: rest2) (by simp at h ⊢; omega)]
      · by_cases hq : (a.textOf = some "\x27" ∨ a.textOf = some "\x60") ∧ b.textOf = a.textOf
        · have hv2 : a.textOf.getD "" ++ a.textOf.getD "" = "\x27\x27" ∨
              a.textOf.getD "" ++ a.textOf.getD "" = "\x60\x60" := by
            rcases hq.1 with hv | hv
            · left; rw [hv]; rfl
            · right; rw [hv]; rfl
          have hpass : formLigatures
              (Node.symK "textord" Mode.text (a.textOf.getD "" ++ a.textOf.getD "") ::
                formLigatures rest) =
              Node.symK "textord" Mode.text (a.textOf.getD "" ++ a.textOf.getD "") ::
                formLigatures (formLigatures rest) := by
            rcases hv2 with hv | hv <;>
              exact formLigatures_pass_head _ _ (by rw [Node.textOf, hv]; decide)
                (by rw [Node.textOf, hv]; decide) (by rw [Node.textOf, hv]; decide)
          cases rest with
          | nil =>
            rw [formLigatures_two, if_neg hg, if_pos hq]
            exact hpass
          | cons c t2 =>
            rw [formLigatures_three, if_neg hg, if_pos hq, hpass,
              ih (c :: t2) (by simp at h ⊢; omega)]
        · rw [formLigatures_pass a b rest hg hq]
          obtain ⟨hd, t', he, hh⟩ := formLigatures_head b rest
          rw [he]
          have pass2 : formLigatures (a :: hd :: t') = a :: formLigatures (hd :: t') := by
            rcases hh with rfl | hh | hh | hh | hh
            · exact formLigatures_pass a hd t' hg hq
            all_goals
              refine formLigatures_pass a hd t' ?_ ?_
              · rintro ⟨_, hbd⟩; rw [hh] at hbd; simp at hbd
              · rintro ⟨hv | hv, hbd⟩ <;> rw [hh, hv] at hbd <;> simp at hbd
          rw [pass2, ← he, ih (b :: rest) (by simp at h ⊢; omega)]

/-- C9: `formLigatures` is idempotent — running it a second time on an
already-processed node list leaves the list unchanged. -/
theorem C9_formLigatures_idempotent (l : List Node) :
    formLigatures (formLigatures l) = formLigatures l :=
  formLigatures_idem_aux l.length l le_rfl

/-- C7: in the math-mode postfix loop of `parseAtom`, a `^` with the
superscript already set raises "Double superscript", a `_` with the
subscript already set raises "Double subscript", and a `'` with the
superscript already set raises "Double superscript". -/
theorem C7_double_script_errors :
    (∀ (fuel : Nat) (base sup sub : Option Node) (g : Node) (s : PState),
      (fetch (consumeSpaces s)).1 = "^" → sup = some g →
      parseAtomLoop (fuel + 1) base sup sub s =
        (Except.error "Double superscript", (fetch (consumeSpaces s)).2)) ∧
    (∀ (fuel : Nat) (base sup sub : Option Node) (g : Node) (s : PState),
      (fetch (consumeSpaces s)).1 = "_" → sub = some g →
      parseAtomLoop (fuel + 1) base sup sub s =
        (Except.error "Double subscript", (fetch (consumeSpaces s)).2)) ∧
    (∀ (fuel : Nat) (base sup sub : Option Node) (g : Node) (s : PState),
      (fetch (consumeSpaces s)).1 = "\x27" → sup = some g →
      parseAtomLoop (fuel + 1) base sup sub s =
        (Except.error "Double superscript", (fetch (consumeSpaces s)).2)) := by
  refine ⟨?_, ?_, ?_⟩ <;>
  · intro fuel base sup sub g s h1 h2
    subst h2
    rcases hfe : fetch (consumeSpaces s) with ⟨lex, s1⟩
    rw [hfe] at h1
    simp only at h1
    subst h1
    simp [parseAtomLoop, hfe]

/-- Witness for C7 at a concrete state whose next token is `^` while a
superscript is already set. -/
theorem C7_witness :
    parseAtomLoop 5 none (some (Node.symK "textord" Mode.math "2")) none
      (initState ["^"] {}) =
      (Except.error "Double superscript",
        (fetch (consumeSpaces (initState ["^"] {}))).2) :=
  C7_double_script_errors.1 4 none _ none (Node.symK "textord" Mode.math "2")
    (initState ["^"] {}) rfl rfl

/-- Helper: the infix scan leaves its accumulator untouched over a list
with no node of type "infix". -/
theorem scanInfx_clean (l : List Node) :
    ∀ (i : Nat) (acc : Option (Nat × Node × String)),
      (∀ nd ∈ l, nd.isInfx = false) → scanInfxAux l i acc = Except.ok acc := by
  induction l with
  | nil => intro i acc _; rfl
  | cons b rest ih =>
    intro i acc h
    have hb : b.isInfx = false := h b (List.mem_cons_self b rest)
    unfold scanInfxAux
    rw [if_neg (by simp [hb])]
    exact ih (i + 1) acc (fun nd hm => h nd (List.mem_cons_of_mem _ hm))

/-- Helper: the infix scan locates a unique node of type "infix" and
records its index and `replaceWith`. -/
theorem scanInfx_found (l : List Node) :
    ∀ (k i : Nat) (nd : Node),
      l[k]? = some nd → nd.isInfx = true →
      (∀ (j : Nat) (nd2 : Node), j ≠ k → l[j]? = some nd2 → nd2.isInfx = false) →
      scanInfxAux l i none = Except.ok (some (i + k, nd, nd.replaceWithOf)) := by
  induction l with
  | nil => intro k i nd h; simp at h
  | cons b rest ih =>
    intro k i nd hget hinf huniq
    match k with
    | 0 =>
      rw [List.getElem?_cons_zero] at hget
      injection hget with hget
      subst hget
      unfold scanInfxAux
      rw [if_pos hinf]
      have hclean : ∀ nd2 ∈ rest, nd2.isInfx = false := by
        intro nd2 hm
        obtain ⟨j, hj⟩ := List.getElem?_of_mem hm
        exact huniq (j + 1) nd2 (by omega) (by rw [List.getElem?_cons_succ]; exact hj)
      rw [scanInfx_clean rest (i + 1) _ hclean]
      simp
    | k' + 1 =>
      have hb : b.isInfx = false := huniq 0 b (by omega) (by rw [List.getElem?_cons_zero])
      unfold scanInfxAux
      rw [if_neg (by simp [hb])]
      rw [List.getElem?_cons_succ] at hget
      have := ih k' (i + 1) nd hget hinf (fun j nd2 hj hg =>
        huniq (j + 1) nd2 (by omega) (by rw [List.getElem?_cons_succ]; exact hg))
      rw [this]
      have : i + 1 + k' = i + (k' + 1) := by omega
      rw [this]

/-- Helper: the infix scan errors once an accumulator is set and another
node of type "infix" occurs. -/
theorem scanInfx_some_err (l : List Node) :
    ∀ (i : Nat) (x : Nat × Node × String),
      (∃ nd ∈ l, nd.isInfx = true) →
      scanInfxAux l i (some x) = Except.error "only one infix operator per group" := by
  induction l with
  | nil => intro i x h; simp at h
  | cons b rest ih =>
    intro i x h
    by_cases hb : b.isInfx = true
    · unfold scanInfxAux
      rw [if_pos hb]
    · unfold scanInfxAux
      rw [if_neg (by simp_all)]
      refine ih (i + 1) x ?_
      obtain ⟨nd, hm, hi⟩ := h
      rcases List.mem_cons.mp hm with rfl | hm2
      · exact absurd hi hb
      · exact ⟨nd, hm2, hi⟩

/-- Helper: the infix scan raises "only one infix operator per group" when
the list holds two or more nodes of type "infix". -/
theorem scanInfx_two_err (l : List Node) :
    ∀ (i : Nat), 2 ≤ (l.filter (fun nd => nd.isInfx)).length →
      scanInfxAux l i none = Except.error "only one infix operator per group" := by
  induction l with
  | nil => intro i h; simp at h
  | cons b rest ih =>
    intro i h
    by_cases hb : b.isInfx = true
    · unfold scanInfxAux
      rw [if_pos hb]
      refine scanInfx_some_err rest (i + 1) _ ?_
      rw [List.filter_cons_of_pos (by simp [hb])] at h
      simp only [List.length_cons] at h
      have hlen : 1 ≤ (rest.filter (fun nd => nd.isInfx)).length := by omega
      obtain ⟨nd, hm⟩ := List.exists_mem_of_length_pos hlen
      have := List.mem_filter.mp hm
      exact ⟨nd, this.1, by simpa using this.2⟩
    · unfold scanInfxAux
      rw [if_neg (by simp_all)]
      refine ih (i + 1) ?_
      rw [List.filter_cons_of_neg (by simp_all)] at h
      exact h

/-- Helper: one expression-loop iteration that parses an atom (used to
assemble concrete executions compositionally). -/
theorem parseExprAtoms_cons_of (n : Nat) (bOI : Bool) (bOTT : Option String)
    (s s1 s2 s3 : PState) (lex : String) (atom : Node) (rest : List Node)
    (hf : fetch (if s.mode = Mode.math then consumeSpaces s else s) = (lex, s1))
    (h1 : endOfExpression.contains lex = false)
    (h2 : bOTT ≠ some lex)
    (h3 : bOI = false)
    (ha : parseAtom n bOTT s1 = (Except.ok (some atom), s2))
    (hrest : parseExprAtoms n bOI bOTT s2 = (Except.ok rest, s3)) :
    parseExprAtoms (n + 1) bOI bOTT s = (Except.ok (atom :: rest), s3) := by
  subst h3
  simp only [parseExprAtoms, hf, h1, ha, hrest, Bool.false_and, if_neg h2]
  simp

/-- Helper: the expression-loop iteration that stops on a null atom. -/
theorem parseExprAtoms_nil_of (n : Nat) (bOI : Bool) (bOTT : Option String)
    (s s1 s2 : PState) (lex : String)
    (hf : fetch (if s.mode = Mode.math then consumeSpaces s else s) = (lex, s1))
    (h1 : endOfExpression.contains lex = false)
    (h2 : bOTT ≠ some lex)
    (h3 : bOI = false)
    (ha : parseAtom n bOTT s1 = (Except.ok none, s2)) :
    parseExprAtoms (n + 1) bOI bOTT s = (Except.ok [], s2) := by
  subst h3
  simp only [parseExprAtoms, hf, h1, ha, Bool.false_and, if_neg h2]
  simp

/-- Helper: assembling `parseExpression` from its atom loop in math mode
when the infix rewrite raises an error. -/
theorem parseExpression_err_of (n : Nat) (bOI : Bool) (bOTT : Option String)
    (s s1 s2 : PState) (body : List Node) (e : PErr)
    (hA : parseExprAtoms n bOI bOTT s = (Except.ok body, s1))
    (hm : s1.mode = Mode.math)
    (hH : handleInfxNodes body s1 = (Except.error e, s2)) :
    parseExpression (n + 1) bOI bOTT s = (Except.error e, s2) := by
  simp only [parseExpression, hA, hm]
  simpa using hH

/-- Helper: assembling `parse` when the expression parse raises an error
under default group settings. -/
theorem parse_err_of (n : Nat) (s s2 : PState) (e : PErr)
    (hg : s.settings.globalGroup = false)
    (hc : s.settings.colorIsTextColor = false)
    (hE : parseExpression n false none (beginGroup s) = (Except.error e, s2)) :
    parse (n + 1) s = (Except.error e, s2) := by
  have hc2 : (beginGroup s).settings.colorIsTextColor = false := hc
  simp only [parse, hg, hc2, Bool.false_eq_true, if_false, hE]

/-- C6: a sibling list holding more than one node of type "infix" makes
`handleInfixNodes` raise a ParseError with message "only one infix operator
per group"; in particular the input `a \over b \over c` fails with that
message. -/
theorem C6_multiple_infx_error :
    (∀ (body : List Node) (s : PState),
      2 ≤ (body.filter (fun nd => nd.isInfx)).length →
      handleInfxNodes body s = (Except.error "only one infix operator per group", s)) ∧
    (parse 32 (initState ["a", "\\over", "b", "\\over", "c"] {})).1 =
      Except.error "only one infix operator per group" := by
  constructor
  · intro body s h
    unfold handleInfxNodes
    rw [scanInfx_two_err body 0 h]
  · have a1 : parseAtom 29 none (midState ["\\over", "b", "\\over", "c"] (some "a") 1) =
        (Except.ok (some (Node.symK "mathord" Mode.math "a")),
         midState ["b", "\\over", "c"] (some "\\over") 1) := rfl
    have a2 : parseAtom 28 none (midState ["b", "\\over", "c"] (some "\\over") 1) =
        (Except.ok (some (Node.infx Mode.math "\\frac")),
         midState ["\\over", "c"] (some "b") 1) := rfl
    have a3 : parseAtom 27 none (midState ["\\over", "c"] (some "b") 1) =
        (Except.ok (some (Node.symK "mathord" Mode.math "b")),
         midState ["c"] (some "\\over") 1) := rfl
    have a4 : parseAtom 26 none (midState ["c"] (some "\\over") 1) =
        (Except.ok (some (Node.infx Mode.math "\\frac")),
         midState [] (some "c") 1) := rfl
    have a5 : parseAtom 25 none (midState [] (some "c") 1) =
        (Except.ok (some (Node.symK "mathord" Mode.math "c")),
         midState [] (some "EOF") 1) := rfl
    have a6 : parseAtom 24 none (midState [] (some "EOF") 1) =
        (Except.ok none, midState [] (some "EOF") 1) := rfl
    have hA : parseExprAtoms 30 false none
        (beginGroup (initState ["a", "\\over", "b", "\\over", "c"] {})) =
        (Except.ok [Node.symK "mathord" Mode.math "a", Node.infx Mode.math "\\frac",
          Node.symK "mathord" Mode.math "b", Node.infx Mode.math "\\frac",
          Node.symK "mathord" Mode.math "c"], midState [] (some "EOF") 1) := by
      refine parseExprAtoms_cons_of 29 false none _ _ _ _ "a" _ _ rfl rfl (by decide) rfl a1 ?_
      refine parseExprAtoms_cons_of 28 false none _ _ _ _ "\\over" _ _ rfl rfl (by decide) rfl a2 ?_
      refine parseExprAtoms_cons_of 27 false none _ _ _ _ "b" _ _ rfl rfl (by decide) rfl a3 ?_
      refine parseExprAtoms_cons_of 26 false none _ _ _ _ "\\over" _ _ rfl rfl (by decide) rfl a4 ?_
      refine parseExprAtoms_cons_of 25 false none _ _ _ _ "c" _ _ rfl rfl (by decide) rfl a5 ?_
      exact parseExprAtoms_nil_of 24 false none _ _ _ "EOF" rfl rfl (by decide) rfl a6
    have hE : parseExpression 31 false none
        (beginGroup (initState ["a", "\\over", "b", "\\over", "c"] {})) =
        (Except.error "only one infix operator per group", midState [] (some "EOF") 1) :=
      parseExpression_err_of 30 false none _ _ _ _ _ hA rfl rfl
    have hP : parse 32 (initState ["a", "\\over", "b", "\\over", "c"] {}) =
        (Except.error "only one infix operator per group", midState [] (some "EOF") 1) :=
      parse_err_of 31 _ _ _ rfl rfl hE
    rw [hP]

/-- Witness for C6 at a concrete two-infix sibling list. -/
theorem C6_witness :
    handleInfxNodes [Node.infx Mode.math "\\frac", Node.infx Mode.math "\\frac"]
      (initState [] {}) =
      (Except.error "only one infix operator per group", initState [] {}) :=
  C6_multiple_infx_error.1 [Node.infx Mode.math "\\frac", Node.infx Mode.math "\\frac"]
    (initState [] {}) (by decide)

/-- C2 (amended): when `parseGroup` is called with an explicit `mode`
argument and completes without raising a ParseError, the parser's mode
after the call equals the mode before the call (on the throwing exit path
the switched mode is not restored — see the counterexample). -/
theorem C2_mode_restored_on_ok (fuel : Nat) (name : String) (optional : Bool)
    (greediness : Option Nat) (bOTT : Option String) (m : Mode) (consumeSp : Bool)
    (s : PState) (r : Option Node) (s' : PState)
    (h : parseGroup fuel name optional greediness bOTT (some m) consumeSp s =
      (Except.ok r, s')) :
    s'.mode = s.mode := by
  match fuel with
  | 0 => exact absurd h (by simp [parseGroup])
  | n + 1 =>
    simp only [parseGroup] at h
    split at h
    · simp at h
    · injection h with h1 h2
      rw [← h2]
      rfl

/-- Counterexample for C2 as stated: `parseGroup` with explicit mode "text"
on the input `{` (then end of input) raises "Expected '}', got 'EOF'" and
exits with the parser still in text mode, though it was called in math
mode. -/
theorem C2_counterexample :
    (parseGroup 8 "t" false none none (some Mode.text) false
      (initState ["\x7b"] {})).1 =
      Except.error "Expected \x27\x7d\x27, got \x27EOF\x27" ∧
    (parseGroup 8 "t" false none none (some Mode.text) false
      (initState ["\x7b"] {})).2.mode = Mode.text ∧
    (initState ["\x7b"] {}).mode = Mode.math :=
  ⟨rfl, rfl, rfl⟩

/-- Witness for C2 at a concrete successful call. -/
theorem C2_witness :
    (midState [] (some "x") 0).mode = (initState ["x"] {}).mode :=
  C2_mode_restored_on_ok 8 "t" true none none Mode.text false
    (initState ["x"] {}) none (midState [] (some "x") 0) rfl

/-- C3 (amended): `parseUrlGroup` sets the catcode of `%` to 13 (active)
before parsing the raw string group, and on every exit path that does not
raise a ParseError the catcode of `%` is back to 14 (comment) on exit (on
the throwing path the catcode stays 13 — see the counterexample). -/
theorem C3_catcode_restored_on_ok (fuel : Nat) (optional consumeSp : Bool)
    (s : PState) (r : Option Node) (s' : PState)
    (h : parseUrlGroup fuel optional consumeSp s = (Except.ok r, s')) :
    s'.catcode "%" = 14 := by
  match fuel with
  | 0 => exact absurd h (by simp [parseUrlGroup])
  | n + 1 =>
    simp only [parseUrlGroup] at h
    split at h
    · exact absurd h (by simp)
    · split at h <;>
      · injection h with h1 h2
        rw [← h2]
        rfl

/-- Counterexample for C3 as stated: at end of input the raw string group
raises "Expected '{', got 'EOF'" and `parseUrlGroup` exits with the catcode
of `%` still 13, though it was 14 (the default) at entry. -/
theorem C3_counterexample :
    (parseUrlGroup 8 false false (initState [] {})).1 =
      Except.error "Expected \x27\x7b\x27, got \x27EOF\x27" ∧
    (parseUrlGroup 8 false false (initState [] {})).2.catcode "%" = 13 ∧
    (initState [] {}).catcode "%" = 14 :=
  ⟨rfl, rfl, rfl⟩

/-- Witness for C3 at a concrete successful call. -/
theorem C3_witness :
    ((parseUrlGroup 8 false false (initState ["a", "\x7d"] {})).2).catcode "%" = 14 :=
  C3_catcode_restored_on_ok 8 false false (initState ["a", "\x7d"] {})
    (some (Node.urlN Mode.math "a"))
    ((parseUrlGroup 8 false false (initState ["a", "\x7d"] {})).2)
    (by apply Prod.ext <;> rfl)

/-- C4 (amended): with `throwOnError = false` an undefined control sequence
produces the `formatUnsupportedCmd` node — a `color` node carrying the
configured error color wrapping a `text` node whose body has one textord
per character of the command text — and for the input `\foo` (four
characters) this node has four textord children, not six. -/
theorem C4_unsupported_cmd :
    (∀ (text : String) (s : PState),
      formatUnsupportedCmd text s =
        Node.colorN s.mode s.settings.errorColor
          [Node.textN s.mode (text.toList.map
            (fun c => Node.symK "textord" Mode.text (String.singleton c)))] ∧
      (text.toList.map
        (fun c => Node.symK "textord" Mode.text (String.singleton c))).length =
        text.length) ∧
    (parse 7 (initState ["\\foo"] { throwOnError := false })).1 =
      Except.ok [Node.colorN Mode.math "#cc0000"
        [Node.textN Mode.math
          [Node.symK "textord" Mode.text "\\", Node.symK "textord" Mode.text "f",
           Node.symK "textord" Mode.text "o", Node.symK "textord" Mode.text "o"]]] ∧
    [Node.symK "textord" Mode.text "\\", Node.symK "textord" Mode.text "f",
     Node.symK "textord" Mode.text "o", Node.symK "textord" Mode.text "o"].length = 4 := by
  refine ⟨fun text s => ⟨rfl, ?_⟩, rfl, rfl⟩
  rw [List.length_map]
  rfl

/-- Counterexample for C4 as stated: parsing `\foo` with
`throwOnError = false` yields the unsupported-cmd node whose text body has
four textord children, not six. -/
theorem C4_counterexample :
    (parse 7 (initState ["\\foo"] { throwOnError := false })).1 =
      Except.ok [Node.colorN Mode.math "#cc0000"
        [Node.textN Mode.math
          [Node.symK "textord" Mode.text "\\", Node.symK "textord" Mode.text "f",
           Node.symK "textord" Mode.text "o", Node.symK "textord" Mode.text "o"]]] ∧
    [Node.symK "textord" Mode.text "\\", Node.symK "textord" Mode.text "f",
     Node.symK "textord" Mode.text "o", Node.symK "textord" Mode.text "o"].length ≠ 6 :=
  ⟨rfl, by decide⟩

/-- C5 (amended): when a sibling list contains exactly one node of type
"infix", at index k, and that node's `replaceWith` is non-empty,
`handleInfixNodes` splits the list into numerator `body[0..k)` and
denominator `body[k+1..)`, reuses a side unchanged when it is a single
ordgroup and otherwise wraps it in a new ordgroup, invokes the function
named by `replaceWith` via `callFunction` with arguments `[numer, denom]`
(or `[numer, body[k], denom]` when the name is `\\abovefrac`), and returns
the one-element list containing the result.  (With an empty `replaceWith`
the rewrite is skipped — see the counterexample.) -/
theorem C5_single_infx_rewrite (body : List Node) (k : Nat) (m : Mode) (rwv : String)
    (s : PState)
    (hk : body[k]? = some (Node.infx m rwv)) (hrw : rwv ≠ "")
    (huniq : ∀ (j : Nat) (nd : Node), j ≠ k → body[j]? = some nd → nd.isInfx = false) :
    handleInfxNodes body s =
      (let numerBody := body.take k
       let denomBody := body.drop (k + 1)
       let numerNode :=
         match numerBody with
         | [n] => if n.isOrdgroup then n else Node.ordgroup s.mode numerBody false
         | _ => Node.ordgroup s.mode numerBody false
       let denomNode :=
         match denomBody with
         | [n] => if n.isOrdgroup then n else Node.ordgroup s.mode denomBody false
         | _ => Node.ordgroup s.mode denomBody false
       match (if rwv = "\\\\abovefrac" then
                callFunction rwv [numerNode, Node.infx m rwv, denomNode] [] s.mode
              else callFunction rwv [numerNode, denomNode] [] s.mode) with
       | Except.ok node => (Except.ok [node], s)
       | Except.error e => (Except.error e, s)) := by
  have hscan : scanInfxAux body 0 none =
      Except.ok (some (k, Node.infx m rwv, rwv)) := by
    simpa [Node.replaceWithOf] using
      scanInfx_found body k 0 (Node.infx m rwv) hk rfl huniq
  unfold handleInfxNodes
  rw [hscan]
  simp only [if_pos hrw]

/-- Counterexample for C5 as stated: on a sibling list whose single infix
node carries an empty `replaceWith`, `handleInfixNodes` returns the body
unchanged and invokes nothing, while the claimed behavior would call the
function named by the empty string (which errors). -/
theorem C5_counterexample :
    handleInfxNodes [Node.infx Mode.math ""] (initState [] {}) =
      (Except.ok [Node.infx Mode.math ""], initState [] {}) ∧
    callFunction "" [Node.ordgroup Mode.math [] false, Node.ordgroup Mode.math [] false]
      [] Mode.math = Except.error "No function handler for " :=
  ⟨rfl, rfl⟩

/-- Witness for C5 at a concrete one-element infix list. -/
theorem C5_witness :
    handleInfxNodes [Node.infx Mode.math "\\frac"] (initState [] {}) =
      (Except.ok [Node.genfrac Mode.math (Node.ordgroup Mode.math [] false)
        (Node.ordgroup Mode.math [] false)], initState [] {}) :=
  (C5_single_infx_rewrite [Node.infx Mode.math "\\frac"] 0 Mode.math "\\frac"
    (initState [] {}) rfl (by decide)
    (fun j nd hj hg => by
      match j with
      | 0 => exact absurd rfl hj
      | j + 1 => simp at hg)).trans rfl

/-- Helper: the prime-collecting loop appends one copy of the prime node
per consecutive `'` token and stops at the first non-prime token. -/
theorem primesLoop_run : ∀ (k fuel : Nat) (prime : Node) (acc : List Node)
    (t : String) (rest : List String) (s : PState),
    k + 1 ≤ fuel → s.nextToken = none →
    s.tokens = List.replicate k "\x27" ++ t :: rest → t ≠ "\x27" →
    primesLoop fuel prime acc s =
      (Except.ok (acc ++ List.replicate k prime),
       { s with nextToken := some t, tokens := rest }) := by
  intro k
  induction k with
  | zero =>
    intro fuel prime acc t rest s hf hn ht hne
    match fuel, hf with
    | f + 1, _ =>
      simp only [List.replicate, List.nil_append] at ht
      simp only [primesLoop, fetch, hn, ht]
      rw [if_neg hne]
      simp
  | succ k ih =>
    intro fuel prime acc t rest s hf hn ht hne
    match fuel, hf with
    | f + 1, _ =>
      rw [List.replicate_succ, List.cons_append] at ht
      simp only [primesLoop, fetch, hn, ht]
      have hrec := ih f prime (acc ++ [prime]) t rest
        (consumeTok
          { s with
            nextToken := some "\x27"
            tokens := List.replicate k "\x27" ++ t :: rest })
        (by omega) rfl rfl hne
      simp only [consumeTok] at hrec ⊢
      rw [hrec]
      simp [List.replicate_succ]

/-- Helper: the postfix loop breaks on a token that is none of `\limits`,
`\nolimits`, `^`, `_` or `'` (spaces already consumed). -/
theorem parseAtomLoop_break (n : Nat) (base sup sub : Option Node) (t : String) (s : PState)
    (hn : s.nextToken = some t) (h1 : t ≠ " ") (h2 : t ≠ "\\limits") (h3 : t ≠ "\\nolimits")
    (h4 : t ≠ "^") (h5 : t ≠ "_") (h6 : t ≠ "\x27") :
    parseAtomLoop (n + 1) base sup sub s = (Except.ok (base, sup, sub), s) := by
  simp only [parseAtomLoop, consumeSpaces, hn]
  rw [if_neg h1]
  simp only [fetch, hn]
  rw [if_neg (by simp [h2, h3]), if_neg h4, if_neg h5, if_neg h6]

/-- Helper: the prime branch of the postfix loop collects the whole run of
`'` tokens into textord primes and, when a `^` follows, appends that
superscript's group as the final element. -/
theorem parseAtomLoop_primes (n k : Nat) (base sub : Option Node) (t : String)
    (rest : List String) (s : PState)
    (hf : k + 1 ≤ n) (hn : s.nextToken = some "\x27")
    (ht : s.tokens = List.replicate k "\x27" ++ t :: rest) (hne : t ≠ "\x27") :
    parseAtomLoop (n + 1) base none sub s =
      (if t = "^" then
        match handleSupSubscript n "superscript"
            { s with nextToken := some t, tokens := rest } with
        | (Except.error e, s3) => (Except.error e, s3)
        | (Except.ok g, s3) =>
          parseAtomLoop n base
            (some (Node.ordgroup s3.mode
              (List.replicate (k + 1) (Node.symK "textord" s.mode "\\prime") ++ [g]) false))
            sub s3
      else
        parseAtomLoop n base
          (some (Node.ordgroup s.mode
            (List.replicate (k + 1) (Node.symK "textord" s.mode "\\prime")) false))
          sub { s with nextToken := some t, tokens := rest }) := by
  have hcs : consumeSpaces s = s := by
    simp only [consumeSpaces, hn]
    rw [if_neg (show ¬(("\x27" : String) = " ") by decide)]
  simp only [parseAtomLoop, hcs, fetch, hn]
  rw [if_neg (show ¬(("\x27" : String) = "\\limits" ∨ ("\x27" : String) = "\\nolimits")
      by decide),
    if_neg (show ¬(("\x27" : String) = "^") by decide),
    if_neg (show ¬(("\x27" : String) = "_") by decide)]
  simp only [if_true, Option.isSome_none, Bool.false_eq_true, if_false]
  have hp := primesLoop_run k n (Node.symK "textord" s.mode "\\prime")
    [Node.symK "textord" s.mode "\\prime"] t rest (consumeTok s) hf rfl
    (by simp [consumeTok, ht]) hne
  simp only [consumeTok] at hp ⊢
  rw [hp]
  simp only [fetch]
  rw [show ([Node.symK "textord" s.mode "\\prime"] ++
    List.replicate k (Node.symK "textord" s.mode "\\prime")) =
    List.replicate (k + 1) (Node.symK "textord" s.mode "\\prime") from
    (List.replicate_succ _ _).symm]

set_option maxHeartbeats 2000000 in
/-- C8: in math mode a run of one or more consecutive `'` tokens after a
base yields a superscript that is an ordgroup containing one textord with
text `\prime` per prime token; if a `^` immediately follows the run, the
group parsed for that superscript is appended as the final element of the
ordgroup; and `x''` parses to
`supsub{base: mathord "x", sup: ordgroup[textord "\prime", textord "\prime"]}`. -/
theorem C8_prime_superscript :
    (∀ (n k : Nat) (base sub : Option Node) (t : String) (rest : List String) (s : PState),
      k + 2 ≤ n → s.nextToken = some "\x27" →
      s.tokens = List.replicate k "\x27" ++ t :: rest →
      t ≠ "\x27" → t ≠ "^" → t ≠ " " → t ≠ "\\limits" → t ≠ "\\nolimits" → t ≠ "_" →
      parseAtomLoop (n + 1) base none sub s =
        (Except.ok (base,
          some (Node.ordgroup s.mode
            (List.replicate (k + 1) (Node.symK "textord" s.mode "\\prime")) false), sub),
         { s with nextToken := some t, tokens := rest })) ∧
    (∀ (n k : Nat) (base sub : Option Node) (rest : List String) (s : PState),
      k + 1 ≤ n → s.nextToken = some "\x27" →
      s.tokens = List.replicate k "\x27" ++ "^" :: rest →
      parseAtomLoop (n + 1) base none sub s =
        (match handleSupSubscript n "superscript"
            { s with nextToken := some "^", tokens := rest } with
         | (Except.error e, s3) => (Except.error e, s3)
         | (Except.ok g, s3) =>
           parseAtomLoop n base
             (some (Node.ordgroup s3.mode
               (List.replicate (k + 1) (Node.symK "textord" s.mode "\\prime") ++ [g]) false))
             sub s3)) ∧
    (parse 7 (initState ["x", "\x27", "\x27"] {})).1 =
      Except.ok [Node.supsub Mode.math (some (Node.symK "mathord" Mode.math "x"))
        (some (Node.ordgroup Mode.math
          [Node.symK "textord" Mode.math "\\prime", Node.symK "textord" Mode.math "\\prime"]
          false)) none] := by
  refine ⟨?_, ?_, rfl⟩
  · intro n k base sub t rest s hf hn ht hne hc hsp hl1 hl2 hu
    rw [parseAtomLoop_primes n k base sub t rest s (by omega) hn ht hne, if_neg hc]
    match n, hf with
    | n' + 1, _ =>
      exact parseAtomLoop_break n' base _ sub t _ rfl hsp hl1 hl2 hc hu hne
  · intro n k base sub rest s hf hn ht
    rw [parseAtomLoop_primes n k base sub "^" rest s hf hn ht (by decide), if_pos rfl]

/-- Witness for C8 at a concrete two-prime state. -/
theorem C8_witness :
    parseAtomLoop 4 (some (Node.symK "mathord" Mode.math "x")) none none
      (midState ["\x27", "a"] (some "\x27") 1) =
      (Except.ok (some (Node.symK "mathord" Mode.math "x"),
        some (Node.ordgroup Mode.math
          [Node.symK "textord" Mode.math "\\prime", Node.symK "textord" Mode.math "\\prime"]
          false), none),
       midState [] (some "a") 1) := by
  have := C8_prime_superscript.1 3 1 (some (Node.symK "mathord" Mode.math "x")) none
    "a" [] (midState ["\x27", "a"] (some "\x27") 1) (by omega) rfl rfl
    (by decide) (by decide) (by decide) (by decide) (by decide) (by decide)
  exact this.trans rfl

/-- Helper: the strict list invariant is the element-wise conjunction of
non-infixness and the node invariant. -/
theorem StrictL_iff (l : List Node) :
    StrictL l ↔ ∀ nd ∈ l, nd.isInfx = false ∧ InvN nd := by
  induction l with
  | nil => simp [StrictL, noInfxElemLStrict, rwGoodL]
  | cons b rest ih =>
    simp only [StrictL, noInfxElemLStrict, rwGoodL, Bool.and_eq_true, List.mem_cons] at *
    constructor
    · rintro ⟨⟨⟨hb1, hb2⟩, hr1⟩, hb3, hr2⟩
      intro nd hm
      rcases hm with rfl | hm
      · exact ⟨by simpa using hb1, hb2, hb3⟩
      · exact ih.mp ⟨hr1, hr2⟩ nd hm
    · intro hall
      obtain ⟨hb1, hb2, hb3⟩ := hall b (Or.inl rfl)
      have := ih.mpr (fun nd hm => hall nd (Or.inr hm))
      exact ⟨⟨⟨by simp [hb1], hb2⟩, this.1⟩, hb3, this.2⟩

/-- Helper: the element-wise invariant of a list as Bool conjunctions. -/
theorem InvL_iff (l : List Node) :
    (noInfxElemL l = true ∧ rwGoodL l = true) ↔ InvL l := by
  induction l with
  | nil => simp [InvL, noInfxElemL, rwGoodL]
  | cons b rest ih =>
    simp only [noInfxElemL, rwGoodL, Bool.and_eq_true, InvL, List.mem_cons] at *
    constructor
    · rintro ⟨⟨hb1, hr1⟩, hb2, hr2⟩ nd hm
      rcases hm with rfl | hm
      · exact ⟨hb1, hb2⟩
      · exact ih.mp ⟨hr1, hr2⟩ nd hm
    · intro hall
      obtain ⟨hb1, hb2⟩ := hall b (Or.inl rfl)
      have := ih.mpr (fun nd hm => hall nd (Or.inr hm))
      exact ⟨⟨hb1, this.1⟩, hb2, this.2⟩

/-- Helper: `InvO` unfolded on Bool predicates. -/
theorem InvO_iff (o : Option Node) :
    (noInfxElemO o = true ∧ rwGoodO o = true) ↔ InvO o := by
  cases o with
  | none => simp [InvO, noInfxElemO, rwGoodO]
  | some nd => simp [InvO, noInfxElemO, rwGoodO, InvN]

/-- Helper: once the infix scan's accumulator is set, a successful scan
returns that accumulator and the remaining nodes contain no infix node. -/
theorem scan_some_ok (l : List Node) :
    ∀ (i : Nat) (x : Nat × Node × String) (y : Option (Nat × Node × String)),
      scanInfxAux l i (some x) = Except.ok y →
      y = some x ∧ ∀ nd ∈ l, nd.isInfx = false := by
  induction l with
  | nil =>
    intro i x y h
    unfold scanInfxAux at h
    injection h with h
    exact ⟨h.symm, by simp⟩
  | cons b rest ih =>
    intro i x y h
    unfold scanInfxAux at h
    by_cases hb : b.isInfx = true
    · rw [if_pos hb] at h
      simp at h
    · rw [if_neg (by simp [hb])] at h
      obtain ⟨hy, hrest⟩ := ih (i + 1) x y h
      refine ⟨hy, ?_⟩
      intro nd hm
      rcases List.mem_cons.mp hm with rfl | hm2
      · simpa using hb
      · exact hrest nd hm2

/-- Helper: a scan from an empty accumulator that finds nothing saw no
infix node at all. -/
theorem scan_ok_none (l : List Node) :
    ∀ i : Nat, scanInfxAux l i none = Except.ok none →
      ∀ nd ∈ l, nd.isInfx = false := by
  induction l with
  | nil => intro i _ nd hm; simp at hm
  | cons b rest ih =>
    intro i h nd hm
    unfold scanInfxAux at h
    by_cases hb : b.isInfx = true
    · rw [if_pos hb] at h
      obtain ⟨hy, _⟩ := scan_some_ok rest (i + 1) _ _ h
      simp at hy
    · rw [if_neg (by simp [hb])] at h
      rcases List.mem_cons.mp hm with rfl | hm2
      · simpa using hb
      · exact ih (i + 1) h nd hm2

/-- Helper: a successful find by the infix scan pins down the found node,
its index relative to the start offset, its `replaceWith`, and the
non-infixness of every other element. -/
theorem scan_found_facts (l : List Node) :
    ∀ (i k : Nat) (nd : Node) (fn : String),
      scanInfxAux l i none = Except.ok (some (k, nd, fn)) →
      i ≤ k ∧ l[k - i]? = some nd ∧ nd.isInfx = true ∧ fn = nd.replaceWithOf ∧
      ∀ (j : Nat) (nd2 : Node), l[j]? = some nd2 → j ≠ k - i → nd2.isInfx = false := by
  induction l with
  | nil =>
    intro i k nd fn h
    unfold scanInfxAux at h
    simp at h
  | cons b rest ih =>
    intro i k nd fn h
    unfold scanInfxAux at h
    by_cases hb : b.isInfx = true
    · rw [if_pos hb] at h
      obtain ⟨hy, hrest⟩ := scan_some_ok rest (i + 1) _ _ h
      simp only [Option.some.injEq, Prod.mk.injEq] at hy
      obtain ⟨rfl, rfl, rfl⟩ := hy
      refine ⟨Nat.le_refl _, ?_, hb, rfl, ?_⟩
      · simp
      · intro j nd2 hg hj
        match j with
        | 0 => omega
        | j' + 1 =>
          rw [List.getElem?_cons_succ] at hg
          exact hrest nd2 (List.getElem?_mem hg)
    · rw [if_neg (by simp [hb])] at h
      obtain ⟨hik, hget, hinf, hfn, huniq⟩ := ih (i + 1) k nd fn h
      have hki : k - i = (k - (i + 1)) + 1 := by omega
      refine ⟨by omega, ?_, hinf, hfn, ?_⟩
      · rw [hki, List.getElem?_cons_succ]
        exact hget
      · intro j nd2 hg hj
        match j with
        | 0 =>
          rw [List.getElem?_cons_zero] at hg
          injection hg with hg
          rw [← hg]
          simpa using hb
        | j' + 1 =>
          rw [List.getElem?_cons_succ] at hg
          exact huniq j' nd2 hg (by omega)

/-- Helper: the prefix `body[0..k)` taken by the infix rewrite is strict
when every element other than the one at index `k` is non-infix. -/
theorem strictL_take (l : List Node) :
    ∀ (k : Nat),
      (∀ (j : Nat) (nd : Node), l[j]? = some nd → j ≠ k → nd.isInfx = false) →
      (∀ nd ∈ l, InvN nd) → StrictL (l.take k) := by
  induction l with
  | nil => intro k _ _; rw [List.take_nil]; exact ⟨rfl, rfl⟩
  | cons b rest ih =>
    intro k huniq hinv
    match k with
    | 0 => exact ⟨rfl, rfl⟩
    | k' + 1 =>
      rw [List.take_succ_cons, StrictL_iff]
      intro nd hm
      rcases List.mem_cons.mp hm with rfl | hm2
      · exact ⟨huniq 0 nd (by rw [List.getElem?_cons_zero]) (by omega),
               hinv nd (List.mem_cons_self _ _)⟩
      · refine (StrictL_iff _).mp (ih k' ?_ ?_) nd hm2
        · intro j nd2 hg hj
          exact huniq (j + 1) nd2 (by rw [List.getElem?_cons_succ]; exact hg) (by omega)
        · intro nd2 hm3
          exact hinv nd2 (List.mem_cons_of_mem _ hm3)

/-- Helper: the suffix `body[k+1..)` dropped past the infix node is strict
when every element other than the one at index `k` is non-infix. -/
theorem strictL_drop (l : List Node) :
    ∀ (k : Nat),
      (∀ (j : Nat) (nd : Node), l[j]? = some nd → j ≠ k → nd.isInfx = false) →
      (∀ nd ∈ l, InvN nd) → StrictL (l.drop (k + 1)) := by
  induction l with
  | nil => intro k _ _; exact ⟨rfl, rfl⟩
  | cons b rest ih =>
    intro k huniq hinv
    match k with
    | 0 =>
      rw [List.drop_succ_cons, List.drop_zero, StrictL_iff]
      intro nd hm
      obtain ⟨j, hj⟩ := List.getElem?_of_mem hm
      exact ⟨huniq (j + 1) nd (by rw [List.getElem?_cons_succ]; exact hj) (by omega),
             hinv nd (List.mem_cons_of_mem _ hm)⟩
    | k' + 1 =>
      rw [List.drop_succ_cons]
      refine ih k' ?_ ?_
      · intro j nd2 hg hj
        exact huniq (j + 1) nd2 (by rw [List.getElem?_cons_succ]; exact hg) (by omega)
      · intro nd2 hm
        exact hinv nd2 (List.mem_cons_of_mem _ hm)

/-- Helper: an ordgroup over a strict body satisfies the node invariant and
is not an infix node. -/
theorem ordgroup_inv (m : Mode) (l : List Node) (sem : Bool) (h : StrictL l) :
    InvN (Node.ordgroup m l sem) ∧ (Node.ordgroup m l sem).isInfx = false := by
  exact ⟨⟨by rw [noInfxElemN]; exact h.1, by rw [rwGoodN]; exact h.2⟩, rfl⟩

/-- Helper: a list of per-character textords (as built by
`formatUnsupportedCmd`) satisfies the element-wise invariant. -/
theorem textordMap_inv (cs : List Char) :
    (∀ nd ∈ cs.map (fun c => Node.symK "textord" Mode.text (String.singleton c)),
      InvN nd) ∧
    noInfxElemL (cs.map (fun c => Node.symK "textord" Mode.text (String.singleton c))) = true ∧
    rwGoodL (cs.map (fun c => Node.symK "textord" Mode.text (String.singleton c))) = true := by
  induction cs with
  | nil => exact ⟨by simp, rfl, rfl⟩
  | cons c rest ih =>
    refine ⟨?_, ?_, ?_⟩
    · intro nd hm
      rcases List.mem_cons.mp hm with rfl | hm2
      · exact ⟨rfl, rfl⟩
      · exact ih.1 nd hm2
    · rw [List.map_cons, noInfxElemL]
      simp only [Bool.and_eq_true]
      exact ⟨rfl, ih.2.1⟩
    · rw [List.map_cons, rwGoodL]
      simp only [Bool.and_eq_true]
      exact ⟨rfl, ih.2.2⟩

/-- Helper: the unsupported-command fallback node satisfies the invariant
and is not an infix node. -/
theorem formatUnsupportedCmd_inv (text : String) (s : PState) :
    InvN (formatUnsupportedCmd text s) ∧ (formatUnsupportedCmd text s).isInfx = false := by
  unfold formatUnsupportedCmd
  refine ⟨⟨?_, ?_⟩, rfl⟩
  · rw [noInfxElemN, noInfxElemL, noInfxElemN]
    simp only [Bool.and_eq_true]
    exact ⟨(textordMap_inv text.toList).2.1, rfl⟩
  · rw [rwGoodN, rwGoodL, rwGoodN]
    simp only [Bool.and_eq_true]
    exact ⟨(textordMap_inv text.toList).2.2, rfl⟩

/-- Helper: accent folding preserves the node invariant and non-infixness
(each fold step wraps the symbol in an accent node). -/
theorem foldAccents_inv (marks : List Char) :
    ∀ (mode : Mode) (sym nd : Node),
      foldAccents marks mode sym = Except.ok nd →
      InvN sym ∧ sym.isInfx = false → InvN nd ∧ nd.isInfx = false := by
  induction marks with
  | nil =>
    intro mode sym nd h hs
    unfold foldAccents at h
    injection h with h
    rw [← h]
    exact hs
  | cons accent rest ih =>
    intro mode sym nd h hs
    unfold foldAccents at h
    rw [show unicodeAccentsT (String.singleton accent) = none from rfl] at h
    simp at h

/-- Helper: a one-element list holding a fraction node over invariant
halves is strict. -/
theorem genfrac_single_strict (m : Mode) (X Y : Node) (hX : InvN X) (hY : InvN Y) :
    StrictL [Node.genfrac m X Y] := by
  rw [StrictL_iff]
  intro nd hm
  rw [List.mem_singleton] at hm
  subst hm
  refine ⟨rfl, ?_, ?_⟩
  · rw [noInfxElemN]
    simp only [Bool.and_eq_true]
    exact ⟨hX.1, hY.1⟩
  · rw [rwGoodN]
    simp only [Bool.and_eq_true]
    exact ⟨hX.2, hY.2⟩

/-- Helper: every node a registered handler returns satisfies the node
invariant, and only the greediness-1 `\over` handler may return an infix
node (which then carries `replaceWith = \frac`). -/
theorem callFunction_inv (name : String) (spec : FunctionSpec) (args : List Node)
    (optArgs : List (Option Node)) (m : Mode) (node : Node)
    (hreg : functionsT name = some spec)
    (h : callFunction name args optArgs m = Except.ok node)
    (hargs : ∀ a ∈ args, InvN a) :
    InvN node ∧ (node.isInfx = true → spec.greediness = 1) := by
  unfold callFunction at h
  rw [hreg] at h
  have h' : spec.handler m args optArgs = Except.ok node := h
  unfold functionsT at hreg
  split at hreg
  · -- name = "\over"
    injection hreg with hreg
    subst hreg
    have h2 : (Except.ok (Node.infx m "\\frac") : Except PErr Node) = Except.ok node := h'
    injection h2 with h2
    subst h2
    refine ⟨⟨rfl, ?_⟩, fun _ => rfl⟩
    rw [rwGoodN]
    decide
  · split at hreg
    · -- name = "\frac"
      injection hreg with hreg
      subst hreg
      have h2 : fracHandler m args optArgs = Except.ok node := h'
      match args, h2 with
      | [numer, denom], h2 =>
        have h3 : (Except.ok (Node.genfrac m numer denom) : Except PErr Node) = Except.ok node := h2
        injection h3 with h3
        subst h3
        have hn := hargs numer (by simp)
        have hd := hargs denom (by simp)
        refine ⟨⟨?_, ?_⟩, ?_⟩
        · rw [noInfxElemN]
          simp only [Bool.and_eq_true]
          exact ⟨hn.1, hd.1⟩
        · rw [rwGoodN]
          simp only [Bool.and_eq_true]
          exact ⟨hn.2, hd.2⟩
        · intro hinf
          simp [Node.isInfx] at hinf
      | [], h2 => simp [fracHandler] at h2
      | [a], h2 => simp [fracHandler] at h2
      | a :: b :: c :: t, h2 => simp [fracHandler] at h2
    · split at hreg
      · -- name = "\zInput"
        injection hreg with hreg
        subst hreg
        have h2 : zInputHandler m args optArgs = Except.ok node := h'
        unfold zInputHandler at h2
        repeat' split at h2
        all_goals
          first
            | (injection h2 with h2; subst h2;
               exact ⟨⟨rfl, rfl⟩, fun hinf => by simp [Node.isInfx] at hinf⟩)
            | simp at h2
      · simp at hreg

/-- Helper: the numerator/denominator wrapping step of the infix rewrite
(reuse a single ordgroup, else wrap) yields an invariant node. -/
theorem sideWrap_inv (m : Mode) (l : List Node) :
    StrictL l →
    InvN (match l with
          | [n] => if n.isOrdgroup then n else Node.ordgroup m l false
          | _ => Node.ordgroup m l false) := by
  intro h
  rcases l with _ | ⟨n1, _ | ⟨n2, t2⟩⟩
  · exact (ordgroup_inv m [] false ⟨rfl, rfl⟩).1
  · show InvN (if n1.isOrdgroup then n1 else Node.ordgroup m [n1] false)
    by_cases hord : n1.isOrdgroup = true
    · rw [if_pos hord]
      exact ((StrictL_iff _).mp h n1 (by simp)).2
    · rw [if_neg hord]
      exact (ordgroup_inv m [n1] false h).1
  · exact (ordgroup_inv m (n1 :: n2 :: t2) false h).1

/-- Helper: a successful `handleInfixNodes` run on an element-wise
invariant sibling list returns a strict list. -/
theorem handleInfxNodes_inv (body : List Node) (s s' : PState) (r : List Node)
    (hinv : ∀ nd ∈ body, InvN nd)
    (h : handleInfxNodes body s = (Except.ok r, s')) :
    StrictL r := by
  unfold handleInfxNodes at h
  rcases hscan : scanInfxAux body 0 none with e | acc
  · rw [hscan] at h
    simp at h
  · rw [hscan] at h
    match acc with
    | none =>
      have h' : ((Except.ok body : Except PErr (List Node)), s) = (Except.ok r, s') := h
      simp only [Prod.mk.injEq, Except.ok.injEq] at h'
      obtain ⟨rfl, rfl⟩ := h'
      rw [StrictL_iff]
      intro nd hm
      exact ⟨scan_ok_none body 0 hscan nd hm, hinv nd hm⟩
    | some kf =>
      obtain ⟨k, nd0, fn⟩ := kf
      obtain ⟨-, hget, hinf, hfn, huniq⟩ := scan_found_facts body 0 k nd0 fn hscan
      simp only [Nat.sub_zero] at hget huniq
      obtain ⟨mm, rwv, rfl⟩ : ∃ mm rwv, nd0 = Node.infx mm rwv := by
        cases nd0
        case infx m2 r2 => exact ⟨m2, r2, rfl⟩
        all_goals simp [Node.isInfx] at hinf
      have hmem : Node.infx mm rwv ∈ body := List.getElem?_mem hget
      have hrw : rwv = "\\frac" := by
        have h2 := (hinv _ hmem).2
        rw [rwGoodN] at h2
        exact of_decide_eq_true h2
      subst hrw
      have hfn2 : fn = "\\frac" := by rw [hfn]; rfl
      subst hfn2
      have hstake : StrictL (body.take k) := strictL_take body k huniq hinv
      have hsdrop : StrictL (body.drop (k + 1)) := strictL_drop body k huniq hinv
      simp at h
      split at h
      · rename_i node heq
        simp only [Prod.mk.injEq, Except.ok.injEq] at h
        obtain ⟨rfl, rfl⟩ := h
        have hcf := callFunction_inv "\\frac" fracSpec _ _ _ _ rfl heq ?hargs
        case hargs =>
          intro a ha
          simp only [List.mem_cons, List.not_mem_nil, or_false] at ha
          rcases ha with rfl | rfl
          · exact sideWrap_inv s.mode (body.take k) hstake
          · exact sideWrap_inv s.mode (body.drop (k + 1)) hsdrop
        have hni : node.isInfx = false := by
          rcases hx : node.isInfx with _ | _
          · rfl
          · have := hcf.2 hx
            simp [fracSpec] at this
        rw [StrictL_iff]
        intro nd hm
        rw [List.mem_singleton] at hm
        subst hm
        exact ⟨hni, hcf.1⟩
      · rename_i e heq
        simp at h

/-- Helper: every node `parseSymbol` returns satisfies the node invariant
and is not an infix node. -/
theorem parseSymbol_inv (s s' : PState) (nd : Node)
    (h : parseSymbol s = (Except.ok (some nd), s')) :
    InvN nd ∧ nd.isInfx = false := by
  simp only [parseSymbol] at h
  repeat' split at h
  all_goals
    first
      | (simp at h
         done)
      | (simp only [Prod.mk.injEq, Except.ok.injEq, Option.some.injEq] at h
         obtain ⟨rfl, -⟩ := h
         exact ⟨⟨rfl, rfl⟩, rfl⟩)
      | (rename_i sym heq
         simp only [Prod.mk.injEq, Except.ok.injEq, Option.some.injEq] at h
         obtain ⟨rfl, -⟩ := h
         refine foldAccents_inv _ _ _ _ heq ?_
         first
           | (split <;> exact ⟨⟨rfl, rfl⟩, rfl⟩)
           | exact ⟨⟨rfl, rfl⟩, rfl⟩)

/-- Helper: `formLigatures` preserves the element-wise node invariant (the
collapsed ligature textords are fresh leaf nodes). -/
theorem formLigatures_inv : ∀ (N : Nat) (l : List Node), l.length ≤ N →
    (∀ nd ∈ l, InvN nd) → ∀ nd ∈ formLigatures l, InvN nd := by
  intro N
  induction N with
  | zero =>
    intro l hlen h nd hm
    match l with
    | [] => simp [formLigatures] at hm
  | succ N ih =>
    intro l hlen h nd hm
    match l with
    | [] => simp [formLigatures] at hm
    | [a] =>
      simp only [formLigatures] at hm
      rw [List.mem_singleton] at hm
      subst hm
      exact h nd (by simp)
    | [a, b] =>
      rw [formLigatures_two] at hm
      split at hm
      · rcases List.mem_cons.mp hm with rfl | hm2
        · exact ⟨rfl, rfl⟩
        · simp [formLigatures] at hm2
      · split at hm
        · rcases List.mem_cons.mp hm with rfl | hm2
          · exact ⟨rfl, rfl⟩
          · simp [formLigatures] at hm2
        · rcases List.mem_cons.mp hm with rfl | hm2
          · exact h nd (by simp)
          · refine ih [b] (by simp at hlen ⊢; omega) (fun x hx => h x ?_) nd hm2
            rw [List.mem_singleton] at hx
            subst hx
            simp
    | a :: b :: c :: rest =>
      rw [formLigatures_three] at hm
      have hlen3 : rest.length + 3 ≤ N + 1 := by simpa using hlen
      split at hm
      · split at hm
        · rcases List.mem_cons.mp hm with rfl | hm2
          · exact ⟨rfl, rfl⟩
          · refine ih rest (by omega) (fun x hx => h x (by simp [hx])) nd hm2
        · rcases List.mem_cons.mp hm with rfl | hm2
          · exact ⟨rfl, rfl⟩
          · refine ih (c :: rest) (by simp; omega) (fun x hx => h x ?_) nd hm2
            rcases List.mem_cons.mp hx with rfl | hx2
            · simp
            · simp [hx2]
      · split at hm
        · rcases List.mem_cons.mp hm with rfl | hm2
          · exact ⟨rfl, rfl⟩
          · refine ih (c :: rest) (by simp; omega) (fun x hx => h x ?_) nd hm2
            rcases List.mem_cons.mp hx with rfl | hx2
            · simp
            · simp [hx2]
        · rcases List.mem_cons.mp hm with rfl | hm2
          · exact h nd (by simp)
          · refine ih (b :: c :: rest) (by simp; omega) (fun x hx => h x ?_) nd hm2
            rcases List.mem_cons.mp hx with rfl | hx2
            · simp
            · rcases List.mem_cons.mp hx2 with rfl | hx3
              · simp
              · simp [hx3]

/-- Helper: the empty optional node is trivially invariant. -/
theorem invO_none : InvO none :=
  fun _ h => Option.noConfusion h

/-- Helper: `InvO` of a present node from `InvN`. -/
theorem invO_some (nd : Node) (h : InvN nd) : InvO (some nd) := by
  intro x hx
  injection hx with hx
  rw [← hx]
  exact h

/-- Helper: the zero-fuel base case of the parser invariants: out of fuel,
every method errors, so each invariant holds vacuously. -/
theorem parserInv_zero :
    ParseInv 0 ∧ PExprInv 0 ∧ PExprAtomsInv 0 ∧ PAtomInv 0 ∧ PAtomLoopInv 0 ∧
    PrimesInv 0 ∧ HSSInv 0 ∧ PGroupInv 0 ∧ PFuncInv 0 ∧ PArgsInv 0 ∧
    PArgsAuxInv 0 ∧ PGroupTypeInv 0 ∧ PColorInv 0 ∧ PSizeInv 0 ∧ PUrlInv 0 := by
  refine ⟨?_, ?_, ?_, ?_, ?_, ?_, ?_, ?_, ?_, ?_, ?_, ?_, ?_, ?_, ?_⟩ <;>
    intro _ _ _ <;> intros <;>
    simp_all [ParseInv, PExprInv, PExprAtomsInv, PAtomInv, PAtomLoopInv, PrimesInv,
      HSSInv, PGroupInv, PFuncInv, PArgsInv, PArgsAuxInv, PGroupTypeInv, PColorInv,
      PSizeInv, PUrlInv, parse, parseExpression, parseExprAtoms, parseAtom,
      parseAtomLoop, primesLoop, handleSupSubscript, parseGroup, parseFunction,
      parseArguments, parseArgsAux, parseGroupOfType, parseColorGroup,
      parseSizeGroup, parseUrlGroup]

/-- Induction step for `parseUrlGroup`: url nodes are invariant leaves. -/
theorem step_parseUrlGroup (n : Nat) : PUrlInv (n + 1) := by
  intro opt cSp s r s' h
  simp only [parseUrlGroup] at h
  repeat' split at h
  all_goals
    first
      | (simp at h
         done)
      | (simp only [Prod.mk.injEq, Except.ok.injEq] at h
         obtain ⟨rfl, -⟩ := h
         exact ⟨invO_none, fun nd hnd => Option.noConfusion hnd⟩)
      | (simp only [Prod.mk.injEq, Except.ok.injEq] at h
         obtain ⟨rfl, -⟩ := h
         refine ⟨invO_some _ ⟨rfl, rfl⟩, ?_⟩
         intro nd hnd
         injection hnd with hnd
         rw [← hnd]
         rfl)

/-- Induction step for `parseColorGroup`: color tokens are invariant
leaves. -/
theorem step_parseColorGroup (n : Nat) : PColorInv (n + 1) := by
  intro opt s r s' h
  simp only [parseColorGroup] at h
  repeat' split at h
  all_goals
    first
      | (simp at h
         done)
      | (simp only [Prod.mk.injEq, Except.ok.injEq] at h
         obtain ⟨rfl, -⟩ := h
         exact ⟨invO_none, fun nd hnd => Option.noConfusion hnd⟩)
      | (simp only [Prod.mk.injEq, Except.ok.injEq] at h
         obtain ⟨rfl, -⟩ := h
         refine ⟨invO_some _ ⟨rfl, rfl⟩, ?_⟩
         intro nd hnd
         injection hnd with hnd
         rw [← hnd]
         rfl)

/-- Induction step for `parseSizeGroup`: size nodes are invariant leaves. -/
theorem step_parseSizeGroup (n : Nat) : PSizeInv (n + 1) := by
  intro opt s r s' h
  simp only [parseSizeGroup] at h
  repeat' split at h
  all_goals
    first
      | (simp at h
         done)
      | (simp only [Prod.mk.injEq, Except.ok.injEq] at h
         obtain ⟨rfl, -⟩ := h
         exact ⟨invO_none, fun nd hnd => Option.noConfusion hnd⟩)
      | (simp only [Prod.mk.injEq, Except.ok.injEq] at h
         obtain ⟨rfl, -⟩ := h
         refine ⟨invO_some _ ⟨rfl, rfl⟩, ?_⟩
         intro nd hnd
         injection hnd with hnd
         rw [← hnd]
         rfl)

/-- Induction step for the prime loop: it only appends copies of the prime
textord. -/
theorem step_primesLoop (n : Nat) (ihPL : PrimesInv n) : PrimesInv (n + 1) := by
  intro prime primes s r s' h hprimes hprime
  simp only [primesLoop] at h
  split at h
  · refine ihPL _ _ _ _ _ h ?_ hprime
    intro nd hm
    rcases List.mem_append.mp hm with hm2 | hm2
    · exact hprimes nd hm2
    · rw [List.mem_singleton] at hm2
      subst hm2
      exact hprime
  · simp only [Prod.mk.injEq, Except.ok.injEq] at h
    obtain ⟨rfl, -⟩ := h
    exact hprimes

/-- Induction step for `handleSupSubscript`: the script group comes from
`parseGroup` with greediness `SUPSUB_GREEDINESS = 1`, hence is invariant
and not an infix node. -/
theorem step_handleSupSubscript (n : Nat) (ihPG : PGroupInv n) : HSSInv (n + 1) := by
  intro name s r s' h
  simp only [handleSupSubscript] at h
  split at h
  · simp at h
  · simp at h
  · rename_i g sx heq
    simp only [Prod.mk.injEq, Except.ok.injEq] at h
    obtain ⟨rfl, -⟩ := h
    obtain ⟨hio, hgre⟩ := ihPG _ _ _ _ _ _ _ _ _ heq
    exact ⟨hio g rfl, hgre SUPSUB_GREEDINESS g rfl (by decide) rfl⟩

/-- Induction step for `parseArguments`: all parsed arguments satisfy the
node invariant. -/
theorem step_parseArguments (n : Nat) (ihPAA : PArgsAuxInv n) : PArgsInv (n + 1) := by
  intro func funcData s r s' h
  simp only [parseArguments] at h
  split at h
  · simp only [Prod.mk.injEq, Except.ok.injEq] at h
    obtain ⟨rfl, -⟩ := h
    exact ⟨fun nd hm => absurd hm (List.not_mem_nil nd), fun o ho => absurd ho (List.not_mem_nil o)⟩
  · exact ihPAA _ _ _ _ _ _ _ _ h (fun nd hm => absurd hm (List.not_mem_nil nd))
      (fun o ho => absurd ho (List.not_mem_nil o))

/-- Induction step for the per-position argument loop. -/
theorem step_parseArgsAux (n : Nat) (ihPAA : PArgsAuxInv n) (ihPGT : PGroupTypeInv n) :
    PArgsAuxInv (n + 1) := by
  intro func funcData i args optArgs s r s' h hargs hopt
  simp only [parseArgsAux] at h
  split at h
  · -- i < totalArgs
    split at h
    · simp at h
    · -- parseGroupOfType returned none
      rename_i sx heq
      split at h
      · refine ihPAA _ _ _ _ _ _ _ _ h hargs ?_
        intro o ho
        rcases List.mem_append.mp ho with ho2 | ho2
        · exact hopt o ho2
        · rw [List.mem_singleton] at ho2
          subst ho2
          exact invO_none
      · simp at h
    · -- parseGroupOfType returned some arg
      rename_i arg sx heq
      have harg : InvN arg := ((ihPGT _ _ _ _ _ _ _ _ heq).1) arg rfl
      split at h
      · refine ihPAA _ _ _ _ _ _ _ _ h hargs ?_
        intro o ho
        rcases List.mem_append.mp ho with ho2 | ho2
        · exact hopt o ho2
        · rw [List.mem_singleton] at ho2
          subst ho2
          exact invO_some arg harg
      · refine ihPAA _ _ _ _ _ _ _ _ h ?_ hopt
        intro nd hm
        rcases List.mem_append.mp hm with hm2 | hm2
        · exact hargs nd hm2
        · rw [List.mem_singleton] at hm2
          subst hm2
          exact harg
  · simp only [Prod.mk.injEq, Except.ok.injEq] at h
    obtain ⟨rfl, -⟩ := h
    exact ⟨hargs, hopt⟩

/-- Induction step for `parseGroupOfType`: dispatch to the per-type group
parsers, wrapping `hbox` results in a styling node and `raw` results in a
raw node. -/
theorem step_parseGroupOfType (n : Nat) (ihPG : PGroupInv n) (ihPC : PColorInv n)
    (ihPS : PSizeInv n) (ihPU : PUrlInv n) : PGroupTypeInv (n + 1) := by
  intro name type? opt gre cSp s r s' h
  simp only [parseGroupOfType] at h
  split at h
  · -- color
    obtain ⟨hio, hni⟩ := ihPC _ _ _ _ h
    exact ⟨hio, fun g nd _ _ hr => hni nd hr⟩
  · -- size
    obtain ⟨hio, hni⟩ := ihPS _ _ _ _ h
    exact ⟨hio, fun g nd _ _ hr => hni nd hr⟩
  · -- url
    obtain ⟨hio, hni⟩ := ihPU _ _ _ _ _ h
    exact ⟨hio, fun g nd _ _ hr => hni nd hr⟩
  · -- math
    exact ihPG _ _ _ _ _ _ _ _ _ h
  · -- text
    exact ihPG _ _ _ _ _ _ _ _ _ h
  · -- hbox
    split at h
    · simp at h
    · simp only [Prod.mk.injEq, Except.ok.injEq] at h
      obtain ⟨rfl, -⟩ := h
      exact ⟨invO_none, fun g nd _ _ hr => Option.noConfusion hr⟩
    · rename_i group sx heq
      simp only [Prod.mk.injEq, Except.ok.injEq] at h
      obtain ⟨rfl, -⟩ := h
      have hg : InvN group := ((ihPG _ _ _ _ _ _ _ _ _ heq).1) group rfl
      refine ⟨invO_some _ ⟨?_, ?_⟩, ?_⟩
      · rw [noInfxElemN]
        simp [noInfxElemL, hg.1]
      · rw [rwGoodN]
        simp [rwGoodL, hg.2]
      · intro g nd _ _ hr
        injection hr with hr
        rw [← hr]
        rfl
  · -- raw
    repeat' split at h
    all_goals
      first
        | (simp at h
           done)
        | (simp only [Prod.mk.injEq, Except.ok.injEq] at h
           obtain ⟨rfl, -⟩ := h
           exact ⟨invO_none, fun g nd _ _ hr => Option.noConfusion hr⟩)
        | (simp only [Prod.mk.injEq, Except.ok.injEq] at h
           obtain ⟨rfl, -⟩ := h
           refine ⟨invO_some _ ⟨rfl, rfl⟩, ?_⟩
           intro g nd _ _ hr
           injection hr with hr
           rw [← hr]
           rfl)
  · -- original
    exact ihPG _ _ _ _ _ _ _ _ _ h
  · -- none
    exact ihPG _ _ _ _ _ _ _ _ _ h

/-- Induction step for `parseFunction`: handler outputs over invariant
arguments are invariant, and a passed greediness of at least 1 rules out
the greediness-1 infix handler. -/
theorem step_parseFunction (n : Nat) (ihPArgs : PArgsInv n) : PFuncInv (n + 1) := by
  intro bOTT name gre s r s' h
  simp only [parseFunction] at h
  split at h
  · simp only [Prod.mk.injEq, Except.ok.injEq] at h
    obtain ⟨rfl, -⟩ := h
    exact ⟨invO_none, fun g nd _ _ hr => Option.noConfusion hr⟩
  · rename_i funcData heqF
    split at h
    · simp at h
    · rename_i hgc
      split at h
      · simp at h
      · split at h
        · simp at h
        · split at h
          · simp at h
          · rename_i args optArgs sx heqA
            split at h
            · rename_i node heqC
              simp only [Prod.mk.injEq, Except.ok.injEq] at h
              obtain ⟨rfl, -⟩ := h
              have hargsInv : InvL args := (ihPArgs _ _ _ _ _ heqA).1
              have hcf := callFunction_inv _ _ _ _ _ _ heqF heqC hargsInv
              refine ⟨invO_some _ hcf.1, ?_⟩
              intro g nd hg h1g hr
              injection hr with hr
              rw [← hr]
              rcases hx : node.isInfx with _ | _
              · rfl
              · exfalso
                have hone := hcf.2 hx
                rw [hg] at hgc
                simp only [decide_eq_true_eq] at hgc
                omega
            · simp at h

/-- Helper: the `parseGroup` conclusion package for a `parseSymbol`
result. -/
theorem parseSymbol_PG (s0 s1 : PState) (sym : Node) (gre : Option Nat)
    (heq : parseSymbol s0 = (Except.ok (some sym), s1)) :
    InvO (some sym) ∧
      ∀ g nd, gre = some g → 1 ≤ g → some sym = some nd → nd.isInfx = false := by
  obtain ⟨hi, hni⟩ := parseSymbol_inv _ _ _ heq
  refine ⟨invO_some _ hi, ?_⟩
  intro g nd _ _ hr
  injection hr with hr
  rw [← hr]
  exact hni

/-- Induction step for `parseGroup`: braced groups wrap a strict
expression in an ordgroup; otherwise the result comes from
`parseFunction`, `parseSymbol`, or the unsupported-command fallback. -/
theorem step_parseGroup (n : Nat) (ihPE : PExprInv n) (ihPF : PFuncInv n) :
    PGroupInv (n + 1) := by
  intro name opt gre bOTT modeArg cSp s r s' h
  simp only [parseGroup] at h
  split at h
  · simp at h
  · rename_i base s1 heq
    simp only [Prod.mk.injEq, Except.ok.injEq] at h
    obtain ⟨rfl, -⟩ := h
    repeat' split at heq
    all_goals
      first
        | (simp at heq
           done)
        | (simp at heq
           obtain ⟨rfl, -⟩ := heq
           exact ⟨invO_none, fun g nd _ _ hr => Option.noConfusion hr⟩)
        | (simp at heq
           obtain ⟨rfl, -⟩ := heq
           refine ⟨invO_some _ (ordgroup_inv _ _ _ ?_).1, fun g nd _ _ hr => ?_⟩
           · apply ihPE
             assumption
           · injection hr with hr
             rw [← hr]
             rfl)
        | (simp at heq
           obtain ⟨rfl, -⟩ := heq
           apply parseSymbol_PG
           assumption)
        | (simp at heq
           obtain ⟨rfl, -⟩ := heq
           apply ihPF
           assumption)
        | (simp at heq
           obtain ⟨rfl, -⟩ := heq
           refine ⟨invO_some _ (formatUnsupportedCmd_inv _ _).1, fun g nd _ _ hr => ?_⟩
           injection hr with hr
           rw [← hr]
           exact (formatUnsupportedCmd_inv _ _).2)

/-- Induction step for `parseExpression`: collect invariant atoms, form
ligatures (invariant-preserving), and let `handleInfixNodes` deliver
strictness. -/
theorem step_parseExpression (n : Nat) (ihPEA : PExprAtomsInv n) : PExprInv (n + 1) := by
  intro bOI bOTT s r s' h
  simp only [parseExpression] at h
  split at h
  · simp at h
  · rename_i body s1 heq
    refine handleInfxNodes_inv _ _ _ _ ?_ h
    have hbase : InvL body := ihPEA _ _ _ _ _ heq
    split
    · exact formLigatures_inv body.length body (Nat.le_refl _) hbase
    · exact hbase

/-- Induction step for the atom loop of `parseExpression`. -/
theorem step_parseExprAtoms (n : Nat) (ihPA : PAtomInv n) (ihPEA : PExprAtomsInv n) :
    PExprAtomsInv (n + 1) := by
  intro bOI bOTT s r s' h
  simp only [parseExprAtoms] at h
  repeat' split at h
  all_goals
    first
      | (simp at h
         done)
      | (simp at h
         obtain ⟨rfl, -⟩ := h
         intro nd hm
         exact absurd hm (List.not_mem_nil nd))
      | (rename_i rest s2 heqR
         simp at h
         obtain ⟨rfl, -⟩ := h
         intro nd hm
         rcases List.mem_cons.mp hm with rfl | hm2
         · exact ihPA _ _ _ _ (by assumption) nd rfl
         · exact ihPEA _ _ _ _ _ heqR nd hm2)

/-- Induction step for `parseAtom`: base from `parseGroup`, postfix loop,
and the optional `supsub` wrapper. -/
theorem step_parseAtom (n : Nat) (ihPG : PGroupInv n) (ihPAL : PAtomLoopInv n) :
    PAtomInv (n + 1) := by
  intro bOTT s r s' h
  simp only [parseAtom] at h
  split at h
  · simp at h
  · rename_i base s1 heqG
    have hbase : InvO base := (ihPG _ _ _ _ _ _ _ _ _ heqG).1
    split at h
    · simp only [Prod.mk.injEq, Except.ok.injEq] at h
      obtain ⟨rfl, -⟩ := h
      exact hbase
    · split at h
      · simp at h
      · rename_i base2 sup sub s2 heqL
        obtain ⟨hb2, hsup, hsub⟩ := ihPAL _ _ _ _ _ _ heqL hbase invO_none invO_none
        split at h
        · simp only [Prod.mk.injEq, Except.ok.injEq] at h
          obtain ⟨rfl, -⟩ := h
          refine invO_some _ ⟨?_, ?_⟩
          · rw [noInfxElemN]
            simp only [Bool.and_eq_true]
            exact ⟨⟨((InvO_iff base2).mpr hb2).1, ((InvO_iff sup).mpr hsup).1⟩,
                   ((InvO_iff sub).mpr hsub).1⟩
          · rw [rwGoodN]
            simp only [Bool.and_eq_true]
            exact ⟨⟨((InvO_iff base2).mpr hb2).2, ((InvO_iff sup).mpr hsup).2⟩,
                   ((InvO_iff sub).mpr hsub).2⟩
        · simp only [Prod.mk.injEq, Except.ok.injEq] at h
          obtain ⟨rfl, -⟩ := h
          exact hb2

/-- Helper: the prime textord node is invariant and not infix. -/
theorem primeOK (m : Mode) :
    InvN (Node.symK "textord" m "\\prime") ∧
      (Node.symK "textord" m "\\prime").isInfx = false :=
  ⟨⟨rfl, rfl⟩, rfl⟩

/-- Helper: the initial one-element prime list of the `'` branch. -/
theorem primeInit (m : Mode) :
    ∀ nd ∈ [Node.symK "textord" m "\\prime"], InvN nd ∧ nd.isInfx = false := by
  intro nd hm
  rw [List.mem_singleton] at hm
  subst hm
  exact ⟨⟨rfl, rfl⟩, rfl⟩

/-- Induction step for the postfix-modifier loop of `parseAtom`: each
branch feeds the loop an invariant, non-infix script node. -/
theorem step_parseAtomLoop (n : Nat) (ihPAL : PAtomLoopInv n) (ihPL : PrimesInv n)
    (ihHSS : HSSInv n) : PAtomLoopInv (n + 1) := by
  intro base sup sub s r s' h hbase hsup hsub
  simp only [parseAtomLoop] at h
  repeat' split at h
  all_goals
    first
      | (simp at h
         done)
      | (simp at h
         obtain ⟨rfl, -⟩ := h
         exact ⟨hbase, hsup, hsub⟩)
      | (exact ihPAL _ _ _ _ _ _ h (invO_some _ ⟨rfl, rfl⟩) hsup hsub)
      | (rename_i g s1 heqH
         exact ihPAL _ _ _ _ _ _ h hbase (invO_some _ (ihHSS _ _ _ _ heqH).1) hsub)
      | (rename_i g s1 heqH
         exact ihPAL _ _ _ _ _ _ h hbase hsup (invO_some _ (ihHSS _ _ _ _ heqH).1))
      | (rename_i primes1 s0 heqPL hcnd
         have hp := ihPL _ _ _ _ _ heqPL (primeInit _) (primeOK _)
         refine ihPAL _ _ _ _ _ _ h hbase (invO_some _ (ordgroup_inv _ _ _ ?_).1) hsub
         rw [StrictL_iff]
         intro nd hm
         exact ⟨(hp nd hm).2, (hp nd hm).1⟩)
      | (have hp := ihPL _ _ _ _ _ (by assumption) (primeInit _) (primeOK _)
         have hg := ihHSS _ _ _ _ (by assumption)
         refine ihPAL _ _ _ _ _ _ h hbase (invO_some _ (ordgroup_inv _ _ _ ?_).1) hsub
         rw [StrictL_iff]
         intro nd hm
         rcases List.mem_append.mp hm with hm2 | hm2
         · exact ⟨(hp nd hm2).2, (hp nd hm2).1⟩
         · rw [List.mem_singleton] at hm2
           subst hm2
           exact ⟨hg.2, hg.1⟩)

/-- Induction step for `parse`: the root result is the `parseExpression`
result. -/
theorem step_parse (n : Nat) (ihPE : PExprInv n) : ParseInv (n + 1) := by
  intro s r s' h
  simp only [parse] at h
  repeat' split at h
  all_goals
    first
      | (simp at h
         done)
      | (simp at h
         obtain ⟨rfl, -⟩ := h
         apply ihPE
         assumption)

/-- The combined parser invariant, by induction on fuel: every successful
parser method maintains the no-infix-element / replaceWith-is-frac tree
invariants. -/
theorem parserInv (fuel : Nat) :
    ParseInv fuel ∧ PExprInv fuel ∧ PExprAtomsInv fuel ∧ PAtomInv fuel ∧
    PAtomLoopInv fuel ∧ PrimesInv fuel ∧ HSSInv fuel ∧ PGroupInv fuel ∧
    PFuncInv fuel ∧ PArgsInv fuel ∧ PArgsAuxInv fuel ∧ PGroupTypeInv fuel ∧
    PColorInv fuel ∧ PSizeInv fuel ∧ PUrlInv fuel := by
  induction fuel with
  | zero => exact parserInv_zero
  | succ n ih =>
    obtain ⟨ihP, ihPE, ihPEA, ihPA, ihPAL, ihPL, ihHSS, ihPG, ihPF, ihPArgs, ihPAA,
      ihPGT, ihPC, ihPS, ihPU⟩ := ih
    exact ⟨step_parse n ihPE, step_parseExpression n ihPEA,
      step_parseExprAtoms n ihPA ihPEA, step_parseAtom n ihPG ihPAL,
      step_parseAtomLoop n ihPAL ihPL ihHSS, step_primesLoop n ihPL,
      step_handleSupSubscript n ihPG, step_parseGroup n ihPE ihPF,
      step_parseFunction n ihPArgs, step_parseArguments n ihPAA,
      step_parseArgsAux n ihPAA ihPGT,
      step_parseGroupOfType n ihPG ihPC ihPS ihPU,
      step_parseColorGroup n, step_parseSizeGroup n, step_parseUrlGroup n⟩

set_option maxHeartbeats 2000000 in
/-- C1 counterexample: the input `\over ^ 2` parses successfully, yet the
returned tree contains a node of type "infix" — `handleInfixNodes` only
rewrites infix nodes that are direct elements of a sibling list, and here
the infix node survives as the `base` of a `supsub` node built around it. -/
theorem C1_counterexample :
    (parse 8 (initState ["\\over", "^", "2"] {})).1 =
      Except.ok [Node.supsub Mode.math (some (Node.infx Mode.math "\\frac"))
        (some (Node.symK "textord" Mode.math "2")) none] ∧
    hasInfxL [Node.supsub Mode.math (some (Node.infx Mode.math "\\frac"))
        (some (Node.symK "textord" Mode.math "2")) none] = true :=
  ⟨rfl, rfl⟩

/-- C1 (amended): for every input whose top-level `parse` succeeds, no
node of type "infix" appears as a direct element of the returned node list
or of the body of any ordgroup nested anywhere in the returned tree; an
infix node can still appear elsewhere in the tree (e.g. as the base of a
`supsub` node, see the counterexample), so the claim's blanket "contains
no node of type infix" is too strong. -/
theorem C1_no_infx_element (fuel : Nat) (s : PState) (r : List Node) (s' : PState)
    (h : parse fuel s = (Except.ok r, s')) :
    noInfxElemLStrict r = true :=
  (((parserInv fuel).1) s r s' h).1

/-- C1 witness: the amended theorem applied to the concrete successful
parse of the empty input. -/
theorem C1_witness :
    ∃ r s', parse 6 (initState [] {}) = (Except.ok r, s') ∧
      noInfxElemLStrict r = true := by
  obtain ⟨r, s', h⟩ : ∃ r s', parse 6 (initState [] {}) = (Except.ok r, s') :=
    ⟨[], (parse 6 (initState [] {})).2, by rfl⟩
  exact ⟨r, s', h, C1_no_infx_element 6 _ r s' h⟩
